import Mathlib

/-!
Verification development for the Textify summarization pipeline
(`app/service.py`, `app/api.py`).

Texts are modelled as lists of characters (`LC`); Python string
operations (split, join, strip, replace, regex substitutions used by
the code) are translated into executable Lean functions.  The character
classes follow the regexes of the source; `str.isalpha`, `str.lower`
and `\s` are modelled on the ASCII range (all characters the pipeline's
own patterns and messages mention are ASCII or the three dash
codepoints, which are handled explicitly).

External collaborators (the transformer model and the tokenizer) are
parameters: the model is a function from prompt and generation bounds
to `Option LC` (`none` models a raised exception), the tokenizer's
encode/decode round trip is a function from text and token bound to
text, as in the spec's external-interface contract.
-/

set_option maxRecDepth 20000

abbrev LC := List Char

/-- Python whitespace (`\s`, `str.strip`, `str.split()`), ASCII range. -/
def pyWs (c : Char) : Bool :=
  c = ' ' || c = '\t' || c = '\n' || c = '\r' || c = '\x0b' || c = '\x0c'

def isAsciiUpper (c : Char) : Bool := 'A' ≤ c && c ≤ 'Z'

def isAsciiLower (c : Char) : Bool := 'a' ≤ c && c ≤ 'z'

/-- `str.isalpha`, modelled on the ASCII range. -/
def pyIsAlpha (c : Char) : Bool := isAsciiUpper c || isAsciiLower c

/-- The character class `[­\-–—]` (soft hyphen, hyphen, en dash, em dash)
used by the dash-run removal regexes in `service.py`. -/
def dashChar (c : Char) : Bool :=
  c = '­' || c = '-' || c = '–' || c = '—'

/-- The character class `[­\-–—\.]` of the combined dash/dot-run removal. -/
def dashDotChar (c : Char) : Bool := dashChar c || c = '.'

/-- The character class `[a-z\s\.\-–—]` of the all-lowercase-garbage test
in the final line filter (note: no soft hyphen in this one). -/
def lowerGarbageChar (c : Char) : Bool :=
  isAsciiLower c || pyWs c || c = '.' || c = '-' || c = '–' || c = '—'

/-- The character class `[­\-–—\.a\s]` consumed after a literal `it says`
by the garbage pattern `it says\s*[­\-–—\.a\s]*`. -/
def itSaysClass (c : Char) : Bool :=
  dashChar c || c = '.' || c = 'a' || pyWs c

/-- Substring test (`pat in s` for non-empty `pat`). -/
def containsSub (pat : LC) : LC → Bool
  | [] => pat.isEmpty
  | c :: rest => pat.isPrefixOf (c :: rest) || containsSub pat rest

/-- `str.strip()`: drop whitespace from both ends. -/
def pyStrip (l : LC) : LC :=
  ((l.dropWhile pyWs).reverse.dropWhile pyWs).reverse

/-- State machine for `str.split()` (split on whitespace runs, no empty
pieces); `acc` holds the reversed current word. -/
def pwGo (acc : LC) : LC → List LC
  | [] => if acc.isEmpty then [] else [acc.reverse]
  | c :: rest =>
    if pyWs c then
      if acc.isEmpty then pwGo [] rest else acc.reverse :: pwGo [] rest
    else pwGo (c :: acc) rest

/-- Python `str.split()` (whitespace word splitting). -/
def pyWords (l : LC) : List LC := pwGo [] l

/-- Helper for `pySplitFuel`: push a character onto the first piece. -/
def consHead (c : Char) : List LC → List LC
  | [] => [[c]]
  | p :: ps => (c :: p) :: ps

/-- Fuel-driven scanner for `str.split(sep)` with non-empty `sep`
(leftmost, non-overlapping). -/
def pySplitFuel (sep : LC) : Nat → LC → List LC
  | 0, l => [l]
  | _ + 1, [] => [[]]
  | f + 1, c :: rest =>
    if sep.isPrefixOf (c :: rest) then
      [] :: pySplitFuel sep f ((c :: rest).drop sep.length)
    else consHead c (pySplitFuel sep f rest)

/-- Python `str.split(sep)` for non-empty `sep`. -/
def pySplit (sep : LC) (l : LC) : List LC := pySplitFuel sep l.length l

/-- Python `sep.join(pieces)`. -/
def pyJoin (sep : LC) : List LC → LC
  | [] => []
  | [p] => p
  | p :: q :: ps => p ++ sep ++ pyJoin sep (q :: ps)

/-- Fuel-driven scanner for `str.replace(pat, repl)` with non-empty
`pat` (leftmost, non-overlapping, scanning continues after the
replacement). -/
def pyReplaceFuel (pat repl : LC) : Nat → LC → LC
  | 0, l => l
  | _ + 1, [] => []
  | f + 1, c :: rest =>
    if pat.isPrefixOf (c :: rest) then
      repl ++ pyReplaceFuel pat repl f ((c :: rest).drop pat.length)
    else c :: pyReplaceFuel pat repl f rest

/-- Python `str.replace(pat, repl)` for non-empty `pat`. -/
def pyReplace (pat repl l : LC) : LC := pyReplaceFuel pat repl l.length l

/-- Fuel-driven scanner for `str.count(pat)` with non-empty `pat`
(non-overlapping occurrences). -/
def pyCountFuel (pat : LC) : Nat → LC → Nat
  | 0, _ => 0
  | _ + 1, [] => 0
  | f + 1, c :: rest =>
    if pat.isPrefixOf (c :: rest) then
      1 + pyCountFuel pat f ((c :: rest).drop pat.length)
    else pyCountFuel pat f rest

/-- Python `str.count(pat)` for non-empty `pat`. -/
def pyCount (pat l : LC) : Nat := pyCountFuel pat l.length l

/-- ASCII `str.lower()`. -/
def pyLower (l : LC) : LC := l.map Char.toLower

/-- Flush helper of the whitespace-collapsing machine: a pending
whitespace run becomes a single space. -/
def wsFlush (pending : Bool) : LC := if pending then [' '] else []

/-- State machine for `re.sub(r'\s+', ' ', s)` (no strip). -/
def wsGo (pending : Bool) : LC → LC
  | [] => wsFlush pending
  | c :: rest =>
    if pyWs c then wsGo true rest
    else wsFlush pending ++ c :: wsGo false rest

/-- `re.sub(r'\s+', ' ', s)`: collapse every whitespace run to one space. -/
def collapseWs (l : LC) : LC := wsGo false l

/-- Flush helper of the run-removal machine: a run of length 1 is the
kept character, a longer run is dropped. -/
def sqFlush : Option (Char × Bool) → LC
  | none => []
  | some (f, false) => [f]
  | some (_, true) => []

/-- State machine for `re.sub(r'[class]{2,}', '', s)`: the state records
the first character of the current class run and whether the run already
has length at least two. -/
def sqGo (p : Char → Bool) (st : Option (Char × Bool)) : LC → LC
  | [] => sqFlush st
  | c :: rest =>
    if p c then
      match st with
      | none => sqGo p (some (c, false)) rest
      | some (f, _) => sqGo p (some (f, true)) rest
    else sqFlush st ++ c :: sqGo p none rest

/-- `re.sub(r'[class]{2,}', '', s)`: remove every run of two or more
class characters, keep isolated ones. -/
def squeezeRun2 (p : Char → Bool) (l : LC) : LC := sqGo p none l

/-- Flush helper of the dot-collapsing machine: runs of three or more
dots become a single dot, shorter runs are kept. -/
def dotFlush (n : Nat) : LC := if 3 ≤ n then ['.'] else List.replicate n '.'

/-- State machine for `re.sub(r'\.{3,}', '.', s)`. -/
def dotGo (n : Nat) : LC → LC
  | [] => dotFlush n
  | c :: rest =>
    if c = '.' then dotGo (n + 1) rest
    else dotFlush n ++ c :: dotGo 0 rest

/-- `re.sub(r'\.{3,}', '.', s)`: collapse runs of three or more dots. -/
def collapseDots (l : LC) : LC := dotGo 0 l

/-- The literal `it says` of the garbage substitution. -/
def itSaysPat : LC := ['i', 't', ' ', 's', 'a', 'y', 's']

/-- Fuel-driven scanner for `re.sub(r'it says\s*[­\-–—\.a\s]*', '', s)`:
at a match, drop the literal and the following greedy class run
(`\s` is contained in the class, so the two greedy stars amount to one
maximal class run), then continue scanning after the match. -/
def itSaysFuel : Nat → LC → LC
  | 0, l => l
  | _ + 1, [] => []
  | f + 1, c :: rest =>
    if itSaysPat.isPrefixOf (c :: rest) then
      itSaysFuel f (((c :: rest).drop 7).dropWhile itSaysClass)
    else c :: itSaysFuel f rest

def removeItSays (l : LC) : LC := itSaysFuel l.length l

/-- Try to consume a literal from the front. -/
def chompLit (pat l : LC) : Option LC :=
  if pat.isPrefixOf l then some (l.drop pat.length) else none

/-- Does `enen\s*-en\s*en-ena\s*aen.*` match at the start of `l`?
Each `\s*` is greedy and the following literal starts with a
non-whitespace character, so matching is deterministic. -/
def matchesEnenAt (l : LC) : Bool :=
  (do
    let l1 ← chompLit ['e', 'n', 'e', 'n'] l
    let l2 ← chompLit ['-', 'e', 'n'] (l1.dropWhile pyWs)
    let l3 ← chompLit ['e', 'n', '-', 'e', 'n', 'a'] (l2.dropWhile pyWs)
    let _ ← chompLit ['a', 'e', 'n'] (l3.dropWhile pyWs)
    pure ()).isSome

/-- Fuel-driven scanner for `re.sub(r'enen\s*-en\s*en-ena\s*aen.*', '', s)`:
the pattern ends in `.*`, so a match removes the rest of the line and the
result is the prefix before the leftmost match. -/
def enenFuel : Nat → LC → LC
  | 0, l => l
  | _ + 1, [] => []
  | f + 1, c :: rest =>
    if matchesEnenAt (c :: rest) then [] else c :: enenFuel f rest

def removeEnen (l : LC) : LC := enenFuel l.length l

/-- Fuel-driven scanner for `re.sub(r'\s[a-z]\s', ' ', s)`
(non-overlapping; scanning resumes after the matched span). -/
def loneLowerFuel : Nat → LC → LC
  | 0, l => l
  | _ + 1, [] => []
  | f + 1, c :: rest =>
    match rest with
    | a :: b :: rest2 =>
      if pyWs c && isAsciiLower a && pyWs b then ' ' :: loneLowerFuel f rest2
      else c :: loneLowerFuel f (a :: b :: rest2)
    | _ => c :: loneLowerFuel f rest

def subLoneLower (l : LC) : LC := loneLowerFuel l.length l

/-- `re.sub(r'^[^A-Z]*', '', s)`: drop the leading run of
non-uppercase characters. -/
def dropNonUpper (l : LC) : LC := l.dropWhile (fun c => !(isAsciiUpper c))

-- Smoke checks that the scanners compute as the Python originals do.
example : pyWords "  a  bc ".data = ["a".data, "bc".data] := by decide
example : pySplit ",".data "a,,b".data = ["a".data, [], "b".data] := by decide
example : pySplit "\n".data [] = [[]] := by decide
example : pyJoin ", ".data ["a".data, "b".data] = "a, b".data := by decide
example : pyReplace ". ".data ".\n\n".data "x. y. ".data = "x.\n\ny.\n\n".data := by decide
example : pyCount "ab".data "abcabab".data = 3 := by decide
example : pyStrip "  ab c\t".data = "ab c".data := by decide
example : collapseWs " a\t\nb ".data = " a b ".data := by decide
example : squeezeRun2 dashChar "a--b-c".data = "ab-c".data := by decide
example : collapseDots "a...b..c.".data = "a.b..c.".data := by decide
example : removeItSays "Xit says - a  Foo".data = "XFoo".data := by decide
example : removeItSays "it sayit says s Foo".data = "it says Foo".data := by decide
example : subLoneLower " a b c".data = " b c".data := by decide
example : dropNonUpper "12ab Cd".data = "Cd".data := by decide
example : containsSub "br".data "abrc".data = true := by decide

/-! ## The adaptive summarization engine (`generate_bert_summary`) -/

/-- Tokenizer contract: `encode` with `truncation=True, max_length=n`
followed by `decode` (an external collaborator, kept abstract). -/
abbrev TruncFn := LC → Nat → LC

/-- ModelFn contract: prompt, `max_new_tokens`, `min_length` to generated
text; `none` models a raised exception. -/
abbrev ModelFn := LC → Nat → Nat → Option LC

/-- One attempted invocation of the summarization model. -/
structure ModelCall where
  input : LC
  maxNew : Nat
  minLen : Nat
deriving DecidableEq

/-- Generation parameters and template instruction of one density tier. -/
structure TierParams where
  maxChunk : Nat
  minChunk : Nat
  finalMax : Nat
  finalMin : Nat
  style : LC
deriving DecidableEq

/-- High-density tier (`article_count >= 8`). -/
def highTier : TierParams :=
  ⟨150, 60, 500, 300,
   ("Create a detailed news summary organized by topics with clear headings. Group related stories under categories like \x27Asia Cup:\x27, \x27International News:\x27, \x27Domestic News:\x27, \x27Business:\x27, etc. Use bullet points and subheadings for clarity").data⟩

/-- Medium-density tier (`4 <= article_count < 8`). -/
def midTier : TierParams :=
  ⟨120, 50, 350, 200,
   ("Create a structured news summary with topic headings. Group similar stories together under clear categories").data⟩

/-- Low-density tier (`article_count < 4`). -/
def lowTier : TierParams :=
  ⟨80, 30, 200, 80,
   ("Create a concise summary covering the key news topics mentioned").data⟩

/-- Adaptive parameter selection from the article count
(`service.py` lines 115-132). -/
def tierParams (articleCount : Nat) : TierParams :=
  if 8 ≤ articleCount then highTier
  else if 4 ≤ articleCount then midTier
  else lowTier

/-- The density estimate (`service.py` lines 95-112): provenance-marker
counts, paragraph count, long-line count, with an aggregator-page floor. -/
def articleCountOf (t : LC) : Nat :=
  let newsStoryCount := pyCount ("NEWS STORY:").data t
  let headlineCount := pyCount ("HEADLINE:").data t
  let articleMarkers := newsStoryCount + headlineCount
  let paragraphs := ((pySplit ("\n\n").data t).map pyStrip).filter (fun p => 30 < p.length)
  let linesWithContent := ((pySplit ("\n").data t).map pyStrip).filter (fun p => 50 < p.length)
  if containsSub ("indiatoday").data (pyLower t) || 10 < linesWithContent.length then
    max (max articleMarkers paragraphs.length) (max (linesWithContent.length / 2) 15)
  else
    max (max articleMarkers (paragraphs.length / 3)) 1

/-- The chunking loop (`service.py` lines 139-143): windows of 400 words
with stride 350, stopping once a window reaches the end.  The Python code
stores each window joined with spaces; we keep the word list and join when
the chunk is used. -/
def mkChunksGo : Nat → List LC → List (List LC)
  | 0, _ => []
  | f + 1, rem =>
    rem.take 400 :: (if rem.length ≤ 400 then [] else mkChunksGo f (rem.drop 350))

def mkChunks (words : List LC) : List (List LC) :=
  if words.isEmpty then [] else mkChunksGo words.length words

/-- The per-chunk instruction prefix of `service.py` line 149. -/
def chunkPromptPre : LC :=
  ("Provide a detailed summary covering all key points and topics mentioned: ").data

/-- The prompt built for one chunk (window joined with spaces, prefixed). -/
def chunkPrompt (c : List LC) : LC := chunkPromptPre ++ pyJoin [' '] c

/-- The per-chunk loop (`service.py` lines 146-156): every chunk is
attempted, a failing invocation is skipped, surviving summaries are
collected in order.  Returns the summaries and the attempted calls. -/
def runChunks (trunc : TruncFn) (model : ModelFn) (mx mn : Nat) :
    List (List LC) → List LC × List ModelCall
  | [] => ([], [])
  | c :: rest =>
    let inp := trunc (chunkPrompt c) 512
    let r := runChunks trunc model mx mn rest
    match model inp mx mn with
    | some s => (s :: r.1, ⟨inp, mx, mn⟩ :: r.2)
    | none => (r.1, ⟨inp, mx, mn⟩ :: r.2)

/-! ### High-tier topic restructuring (`service.py` lines 181-256) -/

def sports_keywords : List LC :=
  ["cricket", "cup", "match", "player", "team", "sport", "asia cup",
   "pakistan cricket", "batting", "bowling", "wicket", "runs",
   "tournament"].map String.data

def international_keywords : List LC :=
  ["russia", "nato", "foreign ministry", "pressure", "oil", "moscow",
   "us", "united states", "ties with india",
   "international relations"].map String.data

def crime_keywords : List LC :=
  ["killed", "murder", "lover", "husband", "dumping body", "crime",
   "police", "arrested", "victim", "criminal"].map String.data

def domestic_keywords : List LC :=
  ["nepal", "president", "minister", "government", "cabinet",
   "domestic policy", "national"].map String.data

def anyKeyword (kws : List LC) (lower : LC) : Bool :=
  kws.any (fun k => containsSub k lower)

inductive Bucket where
  | sports | international | crime | domestic | other
deriving DecidableEq

/-- The cricket/cup/match side condition of the sports branch
(`service.py` line 214). -/
def cricketCupMatch (lower : LC) : Bool :=
  containsSub ("cricket").data lower || containsSub ("cup").data lower ||
    containsSub ("match").data lower

/-- The keyword dispatch of `service.py` lines 212-221, applied to the
lowercased sentence: crime first, then sports (which additionally
requires `cricket`, `cup` or `match`), then international, domestic,
and `other` as the default. -/
def classifyBucket (lower : LC) : Bucket :=
  if anyKeyword crime_keywords lower then .crime
  else if anyKeyword sports_keywords lower && cricketCupMatch lower then .sports
  else if anyKeyword international_keywords lower then .international
  else if anyKeyword domestic_keywords lower then .domestic
  else .other

/-- Sentence extraction of `service.py` lines 183-189: split on `.`,
strip, keep pieces longer than 15 with a letter, re-append the dot. -/
def splitSentencesHigh (s : LC) : List LC :=
  ((pySplit ['.'] s).map pyStrip).filterMap (fun p =>
    if 15 < p.length && p.any pyIsAlpha then
      some (if p.getLast? = some '.' then p else p ++ ['.'])
    else none)

/-- Per-sentence cleanup of `service.py` lines 208-209 (dash-run removal,
whitespace collapse, strip). -/
def cleanSentence (s : LC) : LC := pyStrip (collapseWs (squeezeRun2 dashChar s))

structure Buckets where
  sports : List LC
  international : List LC
  crime : List LC
  domestic : List LC
  other : List LC
deriving DecidableEq

/-- One step of the classification loop (`service.py` lines 206-221):
the lowercased form is taken before the per-sentence cleanup, the cleaned
sentence is stored, sentences at most 15 characters after cleanup are
dropped. -/
def bucketStep (b : Buckets) (sentence : LC) : Buckets :=
  let lower := pyLower sentence
  let s2 := cleanSentence sentence
  if 15 < s2.length then
    match classifyBucket lower with
    | .crime => ⟨b.sports, b.international, b.crime ++ [s2], b.domestic, b.other⟩
    | .sports => ⟨b.sports ++ [s2], b.international, b.crime, b.domestic, b.other⟩
    | .international => ⟨b.sports, b.international ++ [s2], b.crime, b.domestic, b.other⟩
    | .domestic => ⟨b.sports, b.international, b.crime, b.domestic ++ [s2], b.other⟩
    | .other => ⟨b.sports, b.international, b.crime, b.domestic, b.other ++ [s2]⟩
  else b

def bucketize (sentences : List LC) : Buckets :=
  sentences.foldl bucketStep ⟨[], [], [], [], []⟩

/-- A bullet line `• sentence<br>`. -/
def bulletLine (s : LC) : LC := ("• ").data ++ s ++ ("<br>").data

/-- One labeled section: heading, capped bullet list, trailing break. -/
def bucketSection (label : LC) (cap : Nat) (sentences : List LC) : LC :=
  if sentences.isEmpty then []
  else ("<strong>").data ++ label ++ ("</strong><br>").data ++
    ((sentences.take cap).map bulletLine).foldr (· ++ ·) [] ++ ("<br>").data

/-- The final `other` section has cap 2 and no trailing `<br>`. -/
def otherSection (sentences : List LC) : LC :=
  if sentences.isEmpty then []
  else ("<strong>Other News:</strong><br>").data ++
    ((sentences.take 2).map bulletLine).foldr (· ++ ·) []

/-- The structured output built in `service.py` lines 223-253: sections
in the fixed order sports, international, crime, domestic, other, empty
buckets skipped, then stripped. -/
def buildStructured (b : Buckets) : LC :=
  pyStrip
    (bucketSection ("Sports & Asia Cup:").data 3 b.sports ++
     bucketSection ("International News:").data 3 b.international ++
     bucketSection ("Crime & Security:").data 3 b.crime ++
     bucketSection ("Domestic News:").data 3 b.domestic ++
     otherSection b.other)

/-- The flat-summary fallback of `service.py` lines 255-256 (also the tail
of the low-density branch, lines 291-292): combined dash/dot-run removal,
whitespace collapse, strip. -/
def flatClean (s : LC) : LC := pyStrip (collapseWs (squeezeRun2 dashDotChar s))

/-- High-density topic restructuring (`service.py` lines 181-256). -/
def topicRestructure (s : LC) : LC :=
  let sentences := splitSentencesHigh s
  if 3 ≤ sentences.length then buildStructured (bucketize sentences)
  else flatClean s

/-! ### Medium/low-tier paragraph restructuring (`service.py` lines 258-292) -/

/-- Sentence extraction shared by the medium and low branches:
`[s.strip() for s in summary.split('. ') if s.strip() and len(s.strip()) > 10]`. -/
def splitSentencesPara (s : LC) : List LC :=
  ((pySplit (". ").data s).map pyStrip).filter (fun p => !p.isEmpty && 10 < p.length)

/-- `'. '.join(group)` with a final dot appended when missing. -/
def mkPara (g : List LC) : LC :=
  let p := pyJoin (". ").data g
  if p.getLast? = some '.' then p else p ++ ['.']

/-- Grouping `sentences[i:i+k]` for `i in range(0, len, k)` (used with
`k ≥ 1`). -/
def groupFuel (k : Nat) : Nat → List LC → List (List LC)
  | 0, _ => []
  | _ + 1, [] => []
  | f + 1, l => l.take k :: groupFuel k f (l.drop k)

def groupEvery (k : Nat) (l : List LC) : List (List LC) := groupFuel k l.length l

/-- Medium-tier paragraph formatting (`service.py` lines 258-273). -/
def mediumFormat (s : LC) : LC :=
  if containsSub (". ").data s then
    let sentences := splitSentencesPara s
    if 2 ≤ sentences.length then
      let spp := max 1 (sentences.length / 3)
      pyJoin ("<br><br>").data ((groupEvery spp sentences).map mkPara)
    else s
  else s

/-- Low-tier two-paragraph formatting plus cleanup
(`service.py` lines 275-292). -/
def lowFormat (s : LC) : LC :=
  let s1 :=
    if containsSub (". ").data s then
      let sentences := splitSentencesPara s
      if 2 ≤ sentences.length then
        let mid := sentences.length / 2
        mkPara (sentences.take mid) ++ ("<br><br>").data ++ mkPara (sentences.drop mid)
      else s
    else s
  flatClean s1

/-! ### Final line-level cleanup (`service.py` lines 314-341) -/

/-- Per-line transform of the final cleanup (`service.py` lines 322-327). -/
def cleanLine (l : LC) : LC :=
  pyStrip (collapseWs (collapseDots (squeezeRun2 dashChar
    (removeItSays (removeEnen (pyStrip l))))))

/-- The keep filter of the final cleanup (`service.py` lines 329-333). -/
def keepLine (l : LC) : Bool :=
  3 < l.length &&
  l.any pyIsAlpha &&
  !(l.all lowerGarbageChar) &&
  !containsSub ("enen").data l &&
  3 < (l.filter pyIsAlpha).length

/-- The final artifact cleanup (`service.py` lines 314-341): split on
`<br>` when present, else on `\n`; clean and filter each line; re-join
with the same separator; strip. -/
def finalCleanup (s : LC) : LC :=
  let sep := if containsSub ("<br>").data s then ("<br>").data else ("\n").data
  pyStrip (pyJoin sep (((pySplit sep s).map cleanLine).filter keepLine))

/-! ### Post-fusion formatting and the engine -/

/-- The engine's fixed messages. -/
def msgNoContent : LC := ("No content to summarize.").data

def msgTooShort : LC :=
  ("Text too short for summarization. Please provide more content.").data

def msgError : LC := ("Error generating summary. Please try again.").data

/-- Fallback applied to raw model output in the no-chunk-summaries path
and to the combined text when the fusion call fails:
`s.replace('. ', '.\n\n').strip()`. -/
def dotBreaks (s : LC) : LC := pyStrip (pyReplace (". ").data (".\n\n").data s)

/-- The post-fusion formatting (`service.py` lines 167-292): prompt-leak
stripping, garbled-text substitutions, then the tier-specific
restructuring. -/
def formatFused (articleCount : Nat) (style : LC) (s : LC) : LC :=
  let pre := ((pySplit [':'] style).headD [])
  let s1 := if pre.isPrefixOf s then pyStrip (s.drop pre.length) else s
  let s2 := if s1.head? = some ':' then pyStrip s1.tail else s1
  let s3 := collapseWs (dropNonUpper (subLoneLower (collapseDots
    (squeezeRun2 dashChar s2))))
  if 8 ≤ articleCount then topicRestructure s3
  else if 4 ≤ articleCount then mediumFormat s3
  else lowFormat s3

/-- Whitespace normalization applied on entry
(`re.sub(r'\s+', ' ', cleaned_text.strip())`). -/
def engineNorm (text : LC) : LC := collapseWs (pyStrip text)

def engineWords (text : LC) : List LC := pyWords (engineNorm text)

def engineAllChunks (text : LC) : List (List LC) := mkChunks (engineWords text)

def engineTier (text : LC) : TierParams :=
  tierParams (articleCountOf (engineNorm text))

/-- The chunked path of `generate_bert_summary`
(`service.py` lines 94-305). -/
def chunkedPath (trunc : TruncFn) (model : ModelFn) (t : LC) : LC × List ModelCall :=
  let ac := articleCountOf t
  let p := tierParams ac
  let chunks := (mkChunks (pyWords t)).take 3
  let r := runChunks trunc model p.maxChunk p.minChunk chunks
  if r.1.isEmpty then
    let inp := p.style ++ (": ").data ++ trunc t 800
    match model inp p.finalMax p.finalMin with
    | none => (msgError, r.2 ++ [⟨inp, p.finalMax, p.finalMin⟩])
    | some s => (finalCleanup (dotBreaks s), r.2 ++ [⟨inp, p.finalMax, p.finalMin⟩])
  else
    let combined := pyJoin ("\n\n").data r.1
    if 80 < (pyWords combined).length then
      let inp := p.style ++ (": ").data ++ combined
      match model inp p.finalMax p.finalMin with
      | none => (finalCleanup (dotBreaks combined), r.2 ++ [⟨inp, p.finalMax, p.finalMin⟩])
      | some s => (finalCleanup (formatFused ac p.style s), r.2 ++ [⟨inp, p.finalMax, p.finalMin⟩])
    else (finalCleanup combined, r.2)

/-- `generate_bert_summary` (`service.py` lines 73-347), parameterized by
the tokenizer truncation and the model.  The second component is the list
of attempted model invocations, in order. -/
def generate_bert_summary (trunc : TruncFn) (model : ModelFn) (text : LC) :
    LC × List ModelCall :=
  if text.isEmpty || (pyStrip text).isEmpty then (msgNoContent, [])
  else
    let t := engineNorm text
    if (pyWords t).length < 30 then (msgTooShort, [])
    else if 800 < (pyWords t).length then chunkedPath trunc model t
    else
      let inp := trunc (("summarize: ").data ++ t) 512
      match model inp 120 40 with
      | none => (msgError, [⟨inp, 120, 40⟩])
      | some s => (finalCleanup s, [⟨inp, 120, 40⟩])


/-! ## URL content selection (`fetch_article`, `service.py` lines 441-445) -/

/-- The content-selection tail of `fetch_article`: `text` is the
heuristically scraped content, the fallback is the whole page's visible
text (`soup.get_text(...)`); both come from the external HTML parser and
are parameters here.  The code keeps the heuristic text unless it is empty
or shorter than 100 characters after stripping, and returns the chosen
text unconditionally. -/
def fetch_article_select (heuristic fulltext : LC) : LC :=
  if heuristic.isEmpty || (pyStrip heuristic).length < 100 then fulltext
  else heuristic

/-! ## `.txt` upload decoding (`process_file`, `api.py` lines 196-232) -/

/-- Latin-1 decoding: every byte maps to the code point of its value, so
the decoder is total on all byte sequences. -/
def latin1Decode (bs : List Nat) : LC := bs.map Char.ofNat

/-- The multi-encoding decode loop (`api.py` lines 214-221): utf-8,
utf-16, latin1 and cp1252 are tried in order; the first three decoders
live in the standard library and are kept abstract here except latin1,
whose totality is the point. -/
def tryDecodeTxt (d8 d16 d1252 : List Nat → Option LC) (bs : List Nat) :
    Option LC :=
  match d8 bs with
  | some t => some t
  | none =>
    match d16 bs with
    | some t => some t
    | none =>
      match some (latin1Decode bs) with
      | some t => some t
      | none => d1252 bs

/-- The distinguishable failure modes of the `.txt` branch of
`process_file`. -/
inductive TxtError where
  | emptyFile
  | tooSmall
  | undecodable
  | emptyAfterProcessing
deriving DecidableEq

/-- The `.txt` branch of `process_file` (`api.py` lines 196-232):
size validation, the decode loop, strip, and the empty-after-processing
check; on success the stripped text is returned. -/
def process_file_txt (d8 d16 d1252 : List Nat → Option LC) (bs : List Nat) :
    Except TxtError LC :=
  if bs.isEmpty then .error .emptyFile
  else if bs.length < 10 then .error .tooSmall
  else
    match tryDecodeTxt d8 d16 d1252 bs with
    | none => .error .undecodable
    | some t =>
      if (pyStrip t).isEmpty then .error .emptyAfterProcessing
      else .ok (pyStrip t)

/-! ## Claim C3: density-tier partition and monotonicity -/

theorem tierParams_high {n : Nat} (h : 8 ≤ n) : tierParams n = highTier := by
  simp [tierParams, h]

theorem tierParams_mid {n : Nat} (h4 : 4 ≤ n) (h8 : n < 8) :
    tierParams n = midTier := by
  simp [tierParams, h4, Nat.not_le.mpr h8]

theorem tierParams_low {n : Nat} (h : n < 4) : tierParams n = lowTier := by
  have h8 : ¬ 8 ≤ n := by omega
  have h4 : ¬ 4 ≤ n := by omega
  simp [tierParams, h8, h4]

theorem tierParams_mono {m n : Nat} (h : m ≤ n) :
    (tierParams m).maxChunk ≤ (tierParams n).maxChunk ∧
    (tierParams m).minChunk ≤ (tierParams n).minChunk ∧
    (tierParams m).finalMax ≤ (tierParams n).finalMax ∧
    (tierParams m).finalMin ≤ (tierParams n).finalMin := by
  unfold tierParams
  split_ifs <;> simp_all [highTier, midTier, lowTier] <;> omega

/-- Claim C3: the article-count score is partitioned into exactly the
three tiers (high at score ≥ 8, medium at 4 ≤ score < 8, low below 4),
and tier selection is monotonic: a strictly higher article-count score
never selects smaller per-chunk or final generation-length parameters. -/
theorem c3_density_tiers :
    (∀ t : LC, 8 ≤ articleCountOf t → tierParams (articleCountOf t) = highTier) ∧
    (∀ t : LC, 4 ≤ articleCountOf t → articleCountOf t < 8 →
      tierParams (articleCountOf t) = midTier) ∧
    (∀ t : LC, articleCountOf t < 4 → tierParams (articleCountOf t) = lowTier) ∧
    (∀ t1 t2 : LC, articleCountOf t1 < articleCountOf t2 →
      (tierParams (articleCountOf t1)).maxChunk ≤ (tierParams (articleCountOf t2)).maxChunk ∧
      (tierParams (articleCountOf t1)).minChunk ≤ (tierParams (articleCountOf t2)).minChunk ∧
      (tierParams (articleCountOf t1)).finalMax ≤ (tierParams (articleCountOf t2)).finalMax ∧
      (tierParams (articleCountOf t1)).finalMin ≤ (tierParams (articleCountOf t2)).finalMin) :=
  ⟨fun _ h => tierParams_high h,
   fun _ h4 h8 => tierParams_mid h4 h8,
   fun _ h => tierParams_low h,
   fun _ _ h => tierParams_mono (Nat.le_of_lt h)⟩

/-- A minimal single-article text (score 1). -/
def tinyDoc : LC := ("x").data

/-- A recognized aggregator text (the floor of 15 applies). -/
def aggregatorDoc : LC := ("indiatoday").data

theorem c3_density_tiers_witness :
    articleCountOf tinyDoc = 1 ∧ articleCountOf aggregatorDoc = 15 ∧
    tierParams (articleCountOf aggregatorDoc) = highTier ∧
    tierParams (articleCountOf tinyDoc) = lowTier ∧
    (tierParams (articleCountOf tinyDoc)).maxChunk ≤
      (tierParams (articleCountOf aggregatorDoc)).maxChunk ∧
    (tierParams (articleCountOf tinyDoc)).finalMax ≤
      (tierParams (articleCountOf aggregatorDoc)).finalMax :=
  ⟨by decide, by decide,
   c3_density_tiers.1 aggregatorDoc (by decide),
   c3_density_tiers.2.2.1 tinyDoc (by decide),
   (c3_density_tiers.2.2.2 tinyDoc aggregatorDoc (by decide)).1,
   (c3_density_tiers.2.2.2 tinyDoc aggregatorDoc (by decide)).2.2.1⟩

/-! ## Claim C8: extraction fallback -/

/-- A short whole-page fallback text. -/
def tinyPage : LC := ("hi").data

/-- A two-word heuristic text of 150 characters. -/
def twoLongWords : LC :=
  List.replicate 74 'a' ++ [' '] ++ List.replicate 75 'b'

/-- Counterexample to claim C8 as stated: (1) when the heuristic text is
empty and the full-page fallback is a 1-word text, the extractor returns
that under-threshold text — there is no `EmptyContent` failure; (2) the
fallback trigger is 100 *characters*, not ~100 words: a 2-word,
150-character heuristic text is kept. -/
theorem c8_counterexample :
    fetch_article_select [] tinyPage = tinyPage ∧
    (pyWords tinyPage).length = 1 ∧
    fetch_article_select twoLongWords tinyPage = twoLongWords ∧
    (pyWords twoLongWords).length = 2 ∧
    100 ≤ (pyStrip twoLongWords).length := by decide

/-- Claim C8 (amended): if the heuristic content-selection text is empty
or shorter than 100 characters after stripping, the extractor falls back
to the generic full-page text and returns it unconditionally — extraction
never fails on an under-threshold result; otherwise the heuristic text is
returned. -/
theorem c8_selection (h f : LC)
    (hcond : (h.isEmpty || (pyStrip h).length < 100) = true) :
    fetch_article_select h f = f ∧
    ((h.isEmpty || (pyStrip h).length < 100) = false →
      fetch_article_select h f = h) ∧
    (fetch_article_select h f = f ∨ fetch_article_select h f = h) := by
  refine ⟨?_, ?_, ?_⟩
  · simp [fetch_article_select, hcond]
  · intro hcond2; rw [hcond] at hcond2; cases hcond2
  · exact Or.inl (by simp [fetch_article_select, hcond])

theorem c8_selection_witness :
    (([] : LC).isEmpty || (pyStrip ([] : LC)).length < 100) = true ∧
    fetch_article_select [] tinyPage = tinyPage :=
  ⟨by decide, (c8_selection [] tinyPage (by decide)).1⟩

/-! ## Claim C10: `.txt` decoding is total -/

/-- Claim C10: for every byte payload of at least 10 bytes, the
multi-encoding decode loop succeeds regardless of the abstract utf-8,
utf-16 and cp1252 decoders (latin1 accepts every byte sequence), so the
`undecodable` branch is unreachable and the `.txt` branch of
`process_file` fails only when the decoded text is empty after
trimming. -/
theorem c10_txt_decode (d8 d16 d1252 : List Nat → Option LC)
    (bs : List Nat) (hsz : 10 ≤ bs.length) :
    (tryDecodeTxt d8 d16 d1252 bs).isSome = true ∧
    (∃ t, tryDecodeTxt d8 d16 d1252 bs = some t ∧
      process_file_txt d8 d16 d1252 bs =
        (if (pyStrip t).isEmpty then .error .emptyAfterProcessing
         else .ok (pyStrip t))) ∧
    (∀ e, process_file_txt d8 d16 d1252 bs = .error e →
      e = .emptyAfterProcessing) := by
  have hne : bs.isEmpty = false := by
    cases bs with
    | nil => simp at hsz
    | cons a l => rfl
  have hlt : ¬ bs.length < 10 := by omega
  obtain ⟨t, ht⟩ : ∃ t, tryDecodeTxt d8 d16 d1252 bs = some t := by
    unfold tryDecodeTxt
    cases d8 bs with
    | some t => exact ⟨t, rfl⟩
    | none =>
      cases d16 bs with
      | some t => exact ⟨t, rfl⟩
      | none => exact ⟨latin1Decode bs, rfl⟩
  refine ⟨by simp [ht], ⟨t, ht, ?_⟩, ?_⟩
  · unfold process_file_txt
    rw [hne, ht]
    simp [hlt]
  · intro e he
    unfold process_file_txt at he
    rw [hne, ht] at he
    simp [hlt] at he
    by_cases hemp : pyStrip t = []
    · rw [if_pos hemp] at he
      injection he with h
      exact h.symm
    · rw [if_neg hemp] at he
      simp at he

/-- A 12-byte payload decoding (under every decoder we instantiate) to a
whitespace-free text. -/
def sampleBytes : List Nat := [72, 101, 108, 108, 111, 32, 119, 111, 114, 108, 100, 33]

def noDecode : List Nat → Option LC := fun _ => none

theorem c10_txt_decode_witness :
    10 ≤ sampleBytes.length ∧
    (tryDecodeTxt noDecode noDecode noDecode sampleBytes).isSome = true ∧
    process_file_txt noDecode noDecode noDecode sampleBytes =
      .ok ("Hello world!").data :=
  ⟨by decide,
   (c10_txt_decode noDecode noDecode noDecode sampleBytes (by decide)).1,
   by rfl⟩

/-! ## Claims C1 and C5: short-input and direct paths -/

/-- A model whose every invocation raises. -/
def modelNone : ModelFn := fun _ _ _ => none

/-- A model that echoes its prompt. -/
def modelEcho : ModelFn := fun s _ _ => some s

/-- A tokenizer round trip that keeps the text unchanged. -/
def truncId : TruncFn := fun s _ => s

theorem engineNorm_of_strip_nil {text : LC} (h : pyStrip text = []) :
    engineNorm text = [] := by
  rw [engineNorm, h]; rfl

/-- Below the 30-word threshold the engine returns one of its two fixed
terminal messages and performs no model invocation. -/
theorem gbs_short (trunc : TruncFn) (model : ModelFn) (text : LC)
    (h : (pyWords (engineNorm text)).length < 30) :
    generate_bert_summary trunc model text =
      (if text.isEmpty || (pyStrip text).isEmpty then msgNoContent
       else msgTooShort, []) := by
  by_cases hc : (text.isEmpty || (pyStrip text).isEmpty) = true
  · simp [generate_bert_summary, hc]
  · simp only [Bool.not_eq_true] at hc
    simp [generate_bert_summary, hc, h]

/-- Claim C1 (amended): for every input whose word count after whitespace
normalization is below 30, the engine terminates with a fixed
insufficient-content message — the no-content message when the input is
empty or whitespace-only, otherwise the too-short message — performs no
model invocation, and the result is independent of the summarization
model. -/
theorem c1_short_input (trunc : TruncFn) (model : ModelFn) (text : LC)
    (h : (pyWords (engineNorm text)).length < 30) :
    generate_bert_summary trunc model text =
      (if text.isEmpty || (pyStrip text).isEmpty then msgNoContent
       else msgTooShort, []) ∧
    (generate_bert_summary trunc model text).2 = [] ∧
    ∀ model2 : ModelFn, generate_bert_summary trunc model2 text =
      generate_bert_summary trunc model text := by
  refine ⟨gbs_short trunc model text h, ?_, ?_⟩
  · rw [gbs_short trunc model text h]
  · intro model2
    rw [gbs_short trunc model text h, gbs_short trunc model2 text h]

/-- Counterexample to claim C1 as stated: the empty input has word count
0 < 30, yet the engine returns the fixed no-content message, not the
fixed too-short message (both without any model invocation). -/
theorem c1_counterexample :
    (pyWords (engineNorm ([] : LC))).length < 30 ∧
    generate_bert_summary truncId modelNone [] = (msgNoContent, []) ∧
    msgNoContent ≠ msgTooShort := by decide

/-- A two-word input. -/
def shortText : LC := ("hey there").data

theorem c1_short_input_witness :
    (pyWords (engineNorm shortText)).length < 30 ∧
    generate_bert_summary truncId modelNone shortText = (msgTooShort, []) :=
  ⟨by decide, (c1_short_input truncId modelNone shortText (by decide)).1⟩

theorem isEmpty_false_of_words {text : LC}
    (h : 1 ≤ (pyWords (engineNorm text)).length) :
    (text.isEmpty || (pyStrip text).isEmpty) = false := by
  cases htext : text.isEmpty
  · cases hstrip : (pyStrip text).isEmpty
    · rfl
    · exfalso
      have hs : pyStrip text = [] := by
        cases he : pyStrip text
        · rfl
        · rw [he] at hstrip; cases hstrip
      rw [engineNorm_of_strip_nil hs] at h
      simp [pyWords, pwGo] at h
  · exfalso
    have ht : text = [] := by
      cases he : text
      · rfl
      · rw [he] at htext; cases htext
    rw [ht] at h
    simp [engineNorm, pyStrip, collapseWs, wsGo, wsFlush, pyWords, pwGo] at h

/-- Claim C5 (amended): for every input whose word count after whitespace
normalization is between 30 and 800 inclusive, exactly one model
invocation occurs — the direct path's single call on the
tokenizer-truncated text prefixed with the summarization instruction,
with generation bounds 120/40 — whether or not that call succeeds. -/
theorem c5_direct_single_call (trunc : TruncFn) (model : ModelFn) (text : LC)
    (h30 : 30 ≤ (pyWords (engineNorm text)).length)
    (h800 : (pyWords (engineNorm text)).length ≤ 800) :
    (generate_bert_summary trunc model text).2 =
      [⟨trunc (("summarize: ").data ++ engineNorm text) 512, 120, 40⟩] := by
  have hc := @isEmpty_false_of_words text (by omega)
  have hlt : ¬ (pyWords (engineNorm text)).length < 30 := by omega
  have hgt : ¬ 800 < (pyWords (engineNorm text)).length := by omega
  simp only [generate_bert_summary, hc, Bool.false_eq_true, if_false, hlt,
    hgt, if_neg]
  cases model (trunc (("summarize: ").data ++ engineNorm text) 512) 120 40 <;>
    rfl

/-- Counterexample to claim C5 as stated: a three-word input has word
count at most 800, yet zero model invocations occur (the too-short branch
returns first). -/
theorem c5_counterexample :
    (pyWords (engineNorm ("alpha beta gamma").data)).length ≤ 800 ∧
    (generate_bert_summary truncId modelNone ("alpha beta gamma").data).2.length = 0 ∧
    (generate_bert_summary truncId modelNone ("alpha beta gamma").data).2.length ≠ 1 := by
  decide

/-- A thirty-word input. -/
def thirtyWords : LC := pyJoin [' '] (List.replicate 30 ("word").data)

theorem c5_direct_single_call_witness :
    30 ≤ (pyWords (engineNorm thirtyWords)).length ∧
    (pyWords (engineNorm thirtyWords)).length ≤ 800 ∧
    (generate_bert_summary truncId modelEcho thirtyWords).2 =
      [⟨("summarize: ").data ++ engineNorm thirtyWords, 120, 40⟩] :=
  ⟨by decide, by decide,
   c5_direct_single_call truncId modelEcho thirtyWords (by decide) (by decide)⟩

/-! ## Claim C2: overlapping chunking -/

theorem mkChunksGo_step {f : Nat} {rem : List LC} (h : ¬ rem.length ≤ 400) :
    mkChunksGo (f + 1) rem = rem.take 400 :: mkChunksGo f (rem.drop 350) := by
  rw [mkChunksGo, if_neg h]

theorem mkChunksGo_stop {f : Nat} {rem : List LC} (h : rem.length ≤ 400) :
    mkChunksGo (f + 1) rem = [rem.take 400] := by
  rw [mkChunksGo, if_pos h]

theorem mkChunksGo_length_pos (f : Nat) (rem : List LC) :
    1 ≤ (mkChunksGo (f + 1) rem).length := by
  by_cases h : rem.length ≤ 400
  · rw [mkChunksGo_stop h]; simp
  · rw [mkChunksGo_step h]; simp

theorem mkChunksGo_get : ∀ (f : Nat) (rem : List LC), rem.length ≤ f →
    ∀ (k : Nat), k < (mkChunksGo f rem).length →
    (mkChunksGo f rem)[k]? = some ((rem.drop (350 * k)).take 400) := by
  intro f
  induction f with
  | zero => intro rem h k hk; simp [mkChunksGo] at hk
  | succ f ih =>
    intro rem hrem k hk
    by_cases hle : rem.length ≤ 400
    · rw [mkChunksGo_stop hle] at hk ⊢
      simp only [List.length_cons, List.length_nil] at hk
      match k with
      | 0 => simp
      | k + 1 => omega
    · rw [mkChunksGo_step hle] at hk ⊢
      match k with
      | 0 => simp
      | k + 1 =>
        rw [List.getElem?_cons_succ]
        have hlen : (rem.drop 350).length ≤ f := by
          rw [List.length_drop]; omega
        have hk2 : k < (mkChunksGo f (rem.drop 350)).length := by
          simpa using hk
        rw [ih (rem.drop 350) hlen k hk2, List.drop_drop]
        congr 3
        omega

theorem mkChunksGo_full : ∀ (f : Nat) (rem : List LC), rem.length ≤ f →
    ∀ (k : Nat), k + 1 < (mkChunksGo f rem).length →
    400 < rem.length - 350 * k := by
  intro f
  induction f with
  | zero => intro rem h k hk; simp [mkChunksGo] at hk
  | succ f ih =>
    intro rem hrem k hk
    by_cases hle : rem.length ≤ 400
    · rw [mkChunksGo_stop hle] at hk
      simp at hk
    · rw [mkChunksGo_step hle] at hk
      match k with
      | 0 => omega
      | k + 1 =>
        have hlen : (rem.drop 350).length ≤ f := by
          rw [List.length_drop]; omega
        have := ih (rem.drop 350) hlen k (by simpa using hk)
        rw [List.length_drop] at this
        omega

theorem mkChunksGo_last_cover : ∀ (f : Nat) (rem : List LC), rem.length ≤ f →
    rem.length ≠ 0 →
    rem.length ≤ 350 * ((mkChunksGo f rem).length - 1) + 400 := by
  intro f
  induction f with
  | zero => intro rem h hne; omega
  | succ f ih =>
    intro rem hrem hne
    by_cases hle : rem.length ≤ 400
    · rw [mkChunksGo_stop hle]; simp; omega
    · rw [mkChunksGo_step hle]
      have hlen : (rem.drop 350).length ≤ f := by
        rw [List.length_drop]; omega
      have hne2 : (rem.drop 350).length ≠ 0 := by
        rw [List.length_drop]; omega
      have hcov := ih (rem.drop 350) hlen hne2
      rw [List.length_drop] at hcov
      have hpos : 1 ≤ (mkChunksGo f (rem.drop 350)).length := by
        match f with
        | 0 => omega
        | f + 1 => exact mkChunksGo_length_pos f (rem.drop 350)
      simp only [List.length_cons]
      omega

theorem mkChunks_eq_go {ws : List LC} (hne : ws.length ≠ 0) :
    mkChunks ws = mkChunksGo ws.length ws := by
  have hemp : ws.isEmpty = false := by
    cases ws with
    | nil => simp at hne
    | cons a l => rfl
  simp [mkChunks, hemp]

theorem mkChunks_get {ws : List LC} (hne : ws.length ≠ 0) :
    ∀ (k : Nat), k < (mkChunks ws).length →
    (mkChunks ws)[k]? = some ((ws.drop (350 * k)).take 400) := by
  rw [mkChunks_eq_go hne]
  exact fun k hk => mkChunksGo_get ws.length ws (Nat.le_refl _) k hk

theorem mkChunks_full {ws : List LC} (hne : ws.length ≠ 0) :
    ∀ (k : Nat), k + 1 < (mkChunks ws).length → 400 < ws.length - 350 * k := by
  rw [mkChunks_eq_go hne]
  exact fun k hk => mkChunksGo_full ws.length ws (Nat.le_refl _) k hk

theorem mkChunks_cover_len {ws : List LC} (hne : ws.length ≠ 0) :
    ws.length ≤ 350 * ((mkChunks ws).length - 1) + 400 := by
  rw [mkChunks_eq_go hne]
  exact mkChunksGo_last_cover ws.length ws (Nat.le_refl _) hne

theorem mkChunks_len_ge3 {ws : List LC} (h800 : 800 < ws.length) :
    3 ≤ (mkChunks ws).length := by
  rw [mkChunks_eq_go (by omega)]
  obtain ⟨f1, hf1⟩ : ∃ f1, ws.length = f1 + 1 := ⟨ws.length - 1, by omega⟩
  rw [hf1, mkChunksGo_step (by omega)]
  obtain ⟨f2, hf2⟩ : ∃ f2, f1 = f2 + 1 := ⟨f1 - 1, by omega⟩
  rw [hf2, mkChunksGo_step (by rw [List.length_drop]; omega)]
  obtain ⟨f3, hf3⟩ : ∃ f3, f2 = f3 + 1 := ⟨f2 - 1, by omega⟩
  have := mkChunksGo_length_pos f3 ((ws.drop 350).drop 350)
  rw [hf3]
  simp only [List.length_cons]
  omega

/-- The attempted model calls of the chunk loop are exactly one call per
chunk, in order, each on the truncated chunk prompt with the tier's
per-chunk bounds. -/
theorem runChunks_log (trunc : TruncFn) (model : ModelFn) (mx mn : Nat) :
    ∀ cs : List (List LC), (runChunks trunc model mx mn cs).2 =
      cs.map (fun c => ⟨trunc (chunkPrompt c) 512, mx, mn⟩) := by
  intro cs
  induction cs with
  | nil => rfl
  | cons c rest ih =>
    rw [runChunks]
    cases model (trunc (chunkPrompt c) 512) mx mn <;> simp [ih]

/-- The surviving chunk summaries are exactly the successful model
results, in order (a failing chunk is dropped, processing continues). -/
theorem runChunks_sums (trunc : TruncFn) (model : ModelFn) (mx mn : Nat) :
    ∀ cs : List (List LC), (runChunks trunc model mx mn cs).1 =
      cs.filterMap (fun c => model (trunc (chunkPrompt c) 512) mx mn) := by
  intro cs
  induction cs with
  | nil => rfl
  | cons c rest ih =>
    rw [runChunks]
    cases hm : model (trunc (chunkPrompt c) 512) mx mn <;>
      simp [List.filterMap_cons, hm, ih]

/-- The log of the chunked path starts with the chunk-loop calls and adds
at most one fusion/fallback call. -/
theorem chunkedPath_log_shape (trunc : TruncFn) (model : ModelFn) (t : LC) :
    ∃ rest : List ModelCall,
      (chunkedPath trunc model t).2 =
        (runChunks trunc model (tierParams (articleCountOf t)).maxChunk
          (tierParams (articleCountOf t)).minChunk
          ((mkChunks (pyWords t)).take 3)).2 ++ rest ∧
      rest.length ≤ 1 := by
  simp only [chunkedPath]
  split
  · split
    · exact ⟨_, rfl, by simp⟩
    · exact ⟨_, rfl, by simp⟩
  · split
    · split
      · exact ⟨_, rfl, by simp⟩
      · exact ⟨_, rfl, by simp⟩
    · exact ⟨[], by simp, by simp⟩

theorem gbs_chunked (trunc : TruncFn) (model : ModelFn) (text : LC)
    (h800 : 800 < (pyWords (engineNorm text)).length) :
    generate_bert_summary trunc model text =
      chunkedPath trunc model (engineNorm text) := by
  have hc := @isEmpty_false_of_words text (by omega)
  have hlt : ¬ (pyWords (engineNorm text)).length < 30 := by omega
  simp [generate_bert_summary, hc, hlt, h800]

/-- Claim C2: for inputs above 800 words the engine chunks the word
sequence into windows of 400 words advancing by 350; the last 50 words of
each chunk are exactly the first 50 words of the next chunk; every input
word occurs in some chunk; at least three chunks exist and exactly the
first three are passed to per-chunk summarization (the log begins with
their three calls, followed by at most one fusion/fallback call). -/
theorem c2_chunking (trunc : TruncFn) (model : ModelFn) (text : LC)
    (h800 : 800 < (engineWords text).length) :
    (∀ k, k < (engineAllChunks text).length →
      (engineAllChunks text)[k]? =
        some (((engineWords text).drop (350 * k)).take 400)) ∧
    (∀ k ck ck1, (engineAllChunks text)[k]? = some ck →
      (engineAllChunks text)[k + 1]? = some ck1 →
      ck.drop 350 = ck1.take 50 ∧ (ck.drop 350).length = 50) ∧
    (∀ (j : Nat) (w : LC), (engineWords text)[j]? = some w →
      ∃ (k : Nat) (ck : List LC),
        (engineAllChunks text)[k]? = some ck ∧ w ∈ ck) ∧
    3 ≤ (engineAllChunks text).length ∧
    (generate_bert_summary trunc model text).2.take 3 =
      ((engineAllChunks text).take 3).map
        (fun c => ⟨trunc (chunkPrompt c) 512, (engineTier text).maxChunk,
          (engineTier text).minChunk⟩) ∧
    (generate_bert_summary trunc model text).2.length ≤ 4 := by
  have hne : (engineWords text).length ≠ 0 := by omega
  have hget : ∀ (k : Nat), k < (engineAllChunks text).length →
      (engineAllChunks text)[k]? =
        some (((engineWords text).drop (350 * k)).take 400) :=
    mkChunks_get hne
  have hfull : ∀ (k : Nat), k + 1 < (engineAllChunks text).length →
      400 < (engineWords text).length - 350 * k :=
    mkChunks_full hne
  have hcov : (engineWords text).length ≤
      350 * ((engineAllChunks text).length - 1) + 400 :=
    mkChunks_cover_len hne
  have hlen3 : 3 ≤ (engineAllChunks text).length := mkChunks_len_ge3 h800
  have hlenpos : 1 ≤ (engineAllChunks text).length := by omega
  refine ⟨hget, ?_, ?_, hlen3, ?_, ?_⟩
  · -- exact 50-word overlap of consecutive chunks
    intro k ck ck1 hk hk1
    have hklt : k < (engineAllChunks text).length :=
      (List.getElem?_eq_some.mp hk).1
    have hk1lt : k + 1 < (engineAllChunks text).length :=
      (List.getElem?_eq_some.mp hk1).1
    have hckv : ck = ((engineWords text).drop (350 * k)).take 400 := by
      have := hget k hklt
      rw [hk] at this
      exact Option.some.inj this
    have hck1v : ck1 = ((engineWords text).drop (350 * (k + 1))).take 400 := by
      have := hget (k + 1) hk1lt
      rw [hk1] at this
      exact Option.some.inj this
    have hwide := hfull k hk1lt
    subst hckv hck1v
    constructor
    · rw [List.drop_take, List.drop_drop, List.take_take]
      have h350 : 350 * (k + 1) = 350 * k + 350 := by ring
      rw [h350]
      norm_num
    · rw [List.drop_take, List.length_take, List.length_drop, List.length_drop]
      omega
  · -- every input word is covered by some chunk
    intro j w hj
    have hjlt : j < (engineWords text).length :=
      (List.getElem?_eq_some.mp hj).1
    set L := (engineAllChunks text).length with hL
    refine ⟨min (j / 350) (L - 1), ((engineWords text).drop
      (350 * min (j / 350) (L - 1))).take 400, ?_, ?_⟩
    · exact hget _ (by omega)
    · have hdm := Nat.div_add_mod j 350
      have hmod : j % 350 < 350 := Nat.mod_lt j (by norm_num)
      have hbound : 350 * min (j / 350) (L - 1) ≤ j ∧
          j < 350 * min (j / 350) (L - 1) + 400 := by
        rcases Nat.le_total (j / 350) (L - 1) with hc | hc
        · rw [Nat.min_eq_left hc]; omega
        · rw [Nat.min_eq_right hc]
          constructor
          · have : 350 * (L - 1) ≤ 350 * (j / 350) := by
              exact Nat.mul_le_mul_left 350 hc
            omega
          · omega
      have hji : j = 350 * min (j / 350) (L - 1) +
          (j - 350 * min (j / 350) (L - 1)) := by omega
      have : (((engineWords text).drop (350 * min (j / 350) (L - 1))).take
          400)[j - 350 * min (j / 350) (L - 1)]? = some w := by
        rw [List.getElem?_take, if_pos (by omega), List.getElem?_drop]
        rw [← hji]
        exact hj
      exact List.getElem?_mem this
  · -- the log starts with the three chunk calls
    rw [gbs_chunked trunc model text h800]
    obtain ⟨rest, hshape, _⟩ :=
      chunkedPath_log_shape trunc model (engineNorm text)
    rw [hshape, runChunks_log]
    set mapL := ((mkChunks (pyWords (engineNorm text))).take 3).map
      (fun c => (⟨trunc (chunkPrompt c) 512,
        (tierParams (articleCountOf (engineNorm text))).maxChunk,
        (tierParams (articleCountOf (engineNorm text))).minChunk⟩ : ModelCall))
      with hmapL
    have hmaplen : mapL.length = 3 := by
      rw [hmapL, List.length_map, List.length_take]
      have h3 : 3 ≤ (mkChunks (pyWords (engineNorm text))).length := hlen3
      omega
    have hth : (mapL ++ rest).take mapL.length = mapL := List.take_left _ _
    rw [hmaplen] at hth
    exact hth
  · -- at most four model invocations in total
    rw [gbs_chunked trunc model text h800]
    obtain ⟨rest, hshape, hrlen⟩ :=
      chunkedPath_log_shape trunc model (engineNorm text)
    rw [hshape, runChunks_log]
    rw [List.length_append, List.length_map, List.length_take]
    omega

/-! ## Scanner lemmas: behaviour when the pattern does not occur -/

theorem containsSub_cons (pat : LC) (c : Char) (rest : LC) :
    containsSub pat (c :: rest) =
      (pat.isPrefixOf (c :: rest) || containsSub pat rest) := rfl

theorem containsSub_cons_false {pat : LC} {c : Char} {rest : LC}
    (h : containsSub pat (c :: rest) = false) :
    pat.isPrefixOf (c :: rest) = false ∧ containsSub pat rest = false := by
  rw [containsSub_cons, Bool.or_eq_false_iff] at h
  exact h

theorem pySplitFuel_of_not_contains {pat : LC} :
    ∀ (f : Nat) (l : LC), containsSub pat l = false →
    pySplitFuel pat f l = [l] := by
  intro f
  induction f with
  | zero => intro l h; rfl
  | succ f ih =>
    intro l h
    match l with
    | [] => rfl
    | c :: rest =>
      obtain ⟨h1, h2⟩ := containsSub_cons_false h
      rw [pySplitFuel, if_neg (by simp [h1]), ih rest h2]
      rfl

/-- When the separator does not occur, `split` returns the whole string. -/
theorem pySplit_of_not_contains {pat l : LC} (h : containsSub pat l = false) :
    pySplit pat l = [l] :=
  pySplitFuel_of_not_contains l.length l h

theorem pyCountFuel_of_not_contains {pat : LC} :
    ∀ (f : Nat) (l : LC), containsSub pat l = false →
    pyCountFuel pat f l = 0 := by
  intro f
  induction f with
  | zero => intro l h; rfl
  | succ f ih =>
    intro l h
    match l with
    | [] => rfl
    | c :: rest =>
      obtain ⟨h1, h2⟩ := containsSub_cons_false h
      rw [pyCountFuel, if_neg (by simp [h1])]
      exact ih rest h2

/-- When the pattern does not occur, `count` is zero. -/
theorem pyCount_of_not_contains {pat l : LC} (h : containsSub pat l = false) :
    pyCount pat l = 0 :=
  pyCountFuel_of_not_contains l.length l h

theorem pyReplaceFuel_of_not_contains {pat repl : LC} :
    ∀ (f : Nat) (l : LC), containsSub pat l = false →
    pyReplaceFuel pat repl f l = l := by
  intro f
  induction f with
  | zero => intro l h; rfl
  | succ f ih =>
    intro l h
    match l with
    | [] => rfl
    | c :: rest =>
      obtain ⟨h1, h2⟩ := containsSub_cons_false h
      rw [pyReplaceFuel, if_neg (by simp [h1]), ih rest h2]

/-- When the pattern does not occur, `replace` is the identity. -/
theorem pyReplace_of_not_contains {pat repl l : LC}
    (h : containsSub pat l = false) : pyReplace pat repl l = l :=
  pyReplaceFuel_of_not_contains l.length l h

instance : BEq ModelCall :=
  ⟨fun a b => a.input == b.input && a.maxNew == b.maxNew && a.minLen == b.minLen⟩

instance : LawfulBEq ModelCall where
  eq_of_beq := by
    intro a b h
    cases a; cases b
    simp only [instBEqModelCall, Bool.and_eq_true, beq_iff_eq] at h
    simp [h.1.1, h.1.2, h.2]
  rfl := by
    intro a
    cases a
    simp [instBEqModelCall]

/-! ## Claim C4: chunk failures absorbed, fusion failure behaviour -/

/-- The first three chunks, as passed to the per-chunk loop. -/
def engineChunks3 (text : LC) : List (List LC) := (engineAllChunks text).take 3

/-- The chunk loop's result (summaries and attempted calls) inside the
engine run. -/
def engineRun (trunc : TruncFn) (model : ModelFn) (text : LC) :
    List LC × List ModelCall :=
  runChunks trunc model (engineTier text).maxChunk (engineTier text).minChunk
    (engineChunks3 text)

/-- The concatenation of the surviving chunk summaries. -/
def engineCombined (trunc : TruncFn) (model : ModelFn) (text : LC) : LC :=
  pyJoin ("\n\n").data (engineRun trunc model text).1

/-- The final fusion prompt. -/
def engineFusionInput (trunc : TruncFn) (model : ModelFn) (text : LC) : LC :=
  (engineTier text).style ++ (": ").data ++ engineCombined trunc model text

/-- The no-chunk-summaries fallback prompt. -/
def engineFallbackInput (trunc : TruncFn) (text : LC) : LC :=
  (engineTier text).style ++ (": ").data ++ trunc (engineNorm text) 800

/-- Claim C4 (amended): in the chunked path (a) a model failure on any
individual chunk is absorbed — the surviving chunk summaries are exactly
the successful calls, in order; (b) a model failure on the final fusion
pass is also absorbed: the engine falls back to the concatenated chunk
summaries (sentence-dot paragraph substitution plus final cleanup) rather
than surfacing an error; (c) the fixed error message is returned only
when no chunk summary survives and the single full-text fallback
invocation also fails. -/
theorem c4_model_failures (trunc : TruncFn) (model : ModelFn) (text : LC)
    (h800 : 800 < (engineWords text).length) :
    (engineRun trunc model text).1 =
      (engineChunks3 text).filterMap
        (fun c => model (trunc (chunkPrompt c) 512)
          (engineTier text).maxChunk (engineTier text).minChunk) ∧
    ((engineRun trunc model text).1 ≠ [] →
      80 < (pyWords (engineCombined trunc model text)).length →
      model (engineFusionInput trunc model text)
        (engineTier text).finalMax (engineTier text).finalMin = none →
      generate_bert_summary trunc model text =
        (finalCleanup (dotBreaks (engineCombined trunc model text)),
         (engineRun trunc model text).2 ++
           [⟨engineFusionInput trunc model text,
             (engineTier text).finalMax, (engineTier text).finalMin⟩])) ∧
    ((engineRun trunc model text).1 = [] →
      model (engineFallbackInput trunc text)
        (engineTier text).finalMax (engineTier text).finalMin = none →
      generate_bert_summary trunc model text =
        (msgError,
         (engineRun trunc model text).2 ++
           [⟨engineFallbackInput trunc text,
             (engineTier text).finalMax, (engineTier text).finalMin⟩])) := by
  have hgbs := gbs_chunked trunc model text h800
  have hT : tierParams (articleCountOf (engineNorm text)) =
      engineTier text := rfl
  have hR : runChunks trunc model
      (tierParams (articleCountOf (engineNorm text))).maxChunk
      (tierParams (articleCountOf (engineNorm text))).minChunk
      ((mkChunks (pyWords (engineNorm text))).take 3) =
      engineRun trunc model text := rfl
  refine ⟨runChunks_sums trunc model _ _ _, ?_, ?_⟩
  · intro hne hwc hfail
    rw [hgbs]
    simp only [chunkedPath]
    rw [hR]
    simp only [hT]
    have hemp : (engineRun trunc model text).1.isEmpty = false := by
      cases h : (engineRun trunc model text).1 with
      | nil => exact absurd h hne
      | cons a l => rfl
    rw [hemp]
    simp only [Bool.false_eq_true, if_false]
    have hcomb : pyJoin ("\n\n").data (engineRun trunc model text).1 =
        engineCombined trunc model text := rfl
    rw [hcomb, if_pos hwc]
    have hinp : (engineTier text).style ++
        (": ").data ++ engineCombined trunc model text =
        engineFusionInput trunc model text := rfl
    rw [hinp, hfail]
  · intro hnil hfail
    rw [hgbs]
    simp only [chunkedPath]
    rw [hR]
    simp only [hT]
    have hemp : (engineRun trunc model text).1.isEmpty = true := by
      rw [hnil]; rfl
    rw [hemp]
    simp only [if_true]
    have hinp : (engineTier text).style ++
        (": ").data ++ trunc (engineNorm text) 800 =
        engineFallbackInput trunc text := rfl
    rw [hinp, hfail]

/-- An 801-word input (single-letter words separated by spaces). -/
def bigText : LC := pyJoin [' '] (List.replicate 801 ['a'])

/-- A 30-word chunk summary returned by the test model. -/
def newsySummary : LC := pyJoin [' '] (List.replicate 30 ("Newsy").data)

/-- A model that succeeds on the low tier's per-chunk calls
(`max_new_tokens = 80`) and raises on everything else — in particular on
the final fusion call (`max_new_tokens = 200`). -/
def modelChunkOnly : ModelFn := fun _ mx _ =>
  if mx = 80 then some newsySummary else none

theorem bigText_norm : engineNorm bigText = bigText := eq_of_beq (by decide)

theorem bigText_words : pyWords bigText = List.replicate 801 ['a'] :=
  eq_of_beq (by decide)

theorem bigText_strip : pyStrip bigText = bigText := eq_of_beq (by decide)

theorem bigText_len : bigText.length = 1601 := by decide

theorem bigText_wc : (pyWords (engineNorm bigText)).length = 801 := by
  rw [bigText_norm, bigText_words, List.length_replicate]

theorem bigText_articleCount : articleCountOf bigText = 1 := by
  have hns : containsSub ("NEWS STORY:").data bigText = false := by decide
  have hhl : containsSub ("HEADLINE:").data bigText = false := by decide
  have hnn : containsSub ("\n\n").data bigText = false := by decide
  have hn1 : containsSub ("\n").data bigText = false := by decide
  have hit : containsSub ("indiatoday").data (pyLower bigText) = false := by
    decide
  rw [articleCountOf]
  rw [pyCount_of_not_contains hns, pyCount_of_not_contains hhl,
    pySplit_of_not_contains hnn, pySplit_of_not_contains hn1]
  rw [hit]
  simp only [List.map_cons, List.map_nil, bigText_strip]
  rw [List.filter_cons, List.filter_cons]
  simp only [bigText_len]
  norm_num

def chunkA : List LC := List.replicate 400 ['a']

def chunkB : List LC := List.replicate 101 ['a']

theorem bigText_chunks :
    mkChunks (List.replicate 801 ['a']) = [chunkA, chunkA, chunkB] :=
  eq_of_beq (by decide)

/-- The three per-chunk calls of the test run. -/
def bigLog3 : List ModelCall :=
  [⟨chunkPrompt chunkA, 80, 30⟩, ⟨chunkPrompt chunkA, 80, 30⟩,
   ⟨chunkPrompt chunkB, 80, 30⟩]

theorem bigText_runChunks :
    runChunks truncId modelChunkOnly 80 30 [chunkA, chunkA, chunkB] =
      (List.replicate 3 newsySummary, bigLog3) :=
  eq_of_beq (by decide)

/-- The combined text of the three surviving chunk summaries. -/
def combinedBig : LC := pyJoin ("\n\n").data (List.replicate 3 newsySummary)

theorem combinedBig_wc : (pyWords combinedBig).length = 90 := by decide

theorem combinedBig_fallback :
    finalCleanup (dotBreaks combinedBig) =
      pyJoin ("\n").data (List.replicate 3 newsySummary) :=
  eq_of_beq (by decide)

theorem lowTier_of_bigText : engineTier bigText = lowTier := by
  rw [engineTier, bigText_norm, bigText_articleCount]
  decide

theorem engineRun_bigText :
    engineRun truncId modelChunkOnly bigText =
      (List.replicate 3 newsySummary, bigLog3) := by
  rw [engineRun, lowTier_of_bigText]
  have hc3 : engineChunks3 bigText = [chunkA, chunkA, chunkB] := by
    rw [engineChunks3, engineAllChunks]
    show (mkChunks (pyWords (engineNorm bigText))).take 3 = _
    rw [bigText_norm, bigText_words, bigText_chunks]
    rfl
  rw [hc3]
  exact bigText_runChunks

/-- The generic fusion-failure branch of the chunked path: when chunk
summaries survive, the combined text exceeds 80 words and the fusion
invocation raises, the result is the cleaned-up combined text — not an
error. -/
theorem chunkedPath_fusion_fail_eq (trunc : TruncFn) (model : ModelFn)
    (t : LC) (sums : List LC) (log : List ModelCall)
    (hrun : runChunks trunc model (tierParams (articleCountOf t)).maxChunk
      (tierParams (articleCountOf t)).minChunk
      ((mkChunks (pyWords t)).take 3) = (sums, log))
    (hne : sums.isEmpty = false)
    (hwc : 80 < (pyWords (pyJoin ("\n\n").data sums)).length)
    (hfail : model ((tierParams (articleCountOf t)).style ++ (": ").data ++
        pyJoin ("\n\n").data sums)
      (tierParams (articleCountOf t)).finalMax
      (tierParams (articleCountOf t)).finalMin = none) :
    chunkedPath trunc model t =
      (finalCleanup (dotBreaks (pyJoin ("\n\n").data sums)),
       log ++ [⟨(tierParams (articleCountOf t)).style ++ (": ").data ++
          pyJoin ("\n\n").data sums,
         (tierParams (articleCountOf t)).finalMax,
         (tierParams (articleCountOf t)).finalMin⟩]) := by
  simp only [chunkedPath]
  rw [hrun]
  simp only []
  rw [hne]
  simp only [Bool.false_eq_true, if_false]
  rw [if_pos hwc, hfail]

/-- The full test run, assembled from the staged computations. -/
theorem gbs_bigText :
    generate_bert_summary truncId modelChunkOnly bigText =
      (pyJoin ("\n").data (List.replicate 3 newsySummary),
       bigLog3 ++ [⟨lowTier.style ++ (": ").data ++ combinedBig, 200, 80⟩]) := by
  rw [gbs_chunked truncId modelChunkOnly bigText (by rw [bigText_wc]; norm_num)]
  rw [bigText_norm]
  have hrun : runChunks truncId modelChunkOnly
      (tierParams (articleCountOf bigText)).maxChunk
      (tierParams (articleCountOf bigText)).minChunk
      ((mkChunks (pyWords bigText)).take 3) =
      (List.replicate 3 newsySummary, bigLog3) := by
    rw [bigText_articleCount, bigText_words, bigText_chunks]
    exact bigText_runChunks
  have h := chunkedPath_fusion_fail_eq truncId modelChunkOnly bigText
    (List.replicate 3 newsySummary) bigLog3 hrun rfl
    (by
      show 80 < (pyWords combinedBig).length
      rw [combinedBig_wc]; norm_num)
    (by rw [bigText_articleCount]; rfl)
  rw [h, bigText_articleCount]
  rw [show pyJoin ("\n\n").data (List.replicate 3 newsySummary) = combinedBig
    from rfl]
  rw [combinedBig_fallback]
  rfl

/-- Counterexample to claim C4 as stated: on an 801-word input with a
model that succeeds on all three chunk calls and raises on the fusion
call, the engine attempts the fusion call (the fourth logged call, on
which the model raises) and yet returns the cleaned-up concatenation of
the chunk summaries — the fusion failure is absorbed, not surfaced as an
error result. -/
theorem c4_counterexample :
    (pyWords (engineNorm bigText)).length = 801 ∧
    modelChunkOnly (lowTier.style ++ (": ").data ++ combinedBig) 200 80 =
      none ∧
    generate_bert_summary truncId modelChunkOnly bigText =
      (pyJoin ("\n").data (List.replicate 3 newsySummary),
       bigLog3 ++ [⟨lowTier.style ++ (": ").data ++ combinedBig, 200, 80⟩]) ∧
    pyJoin ("\n").data (List.replicate 3 newsySummary) ≠ msgError :=
  ⟨bigText_wc, rfl, gbs_bigText, by decide⟩

theorem c4_model_failures_witness :
    800 < (engineWords bigText).length ∧
    (engineRun truncId modelChunkOnly bigText).1 ≠ [] ∧
    generate_bert_summary truncId modelChunkOnly bigText =
      (finalCleanup (dotBreaks (engineCombined truncId modelChunkOnly bigText)),
       (engineRun truncId modelChunkOnly bigText).2 ++
         [⟨engineFusionInput truncId modelChunkOnly bigText,
           (engineTier bigText).finalMax, (engineTier bigText).finalMin⟩]) := by
  have h800 : 800 < (engineWords bigText).length := by
    show 800 < (pyWords (engineNorm bigText)).length
    rw [bigText_wc]; norm_num
  have hne : (engineRun truncId modelChunkOnly bigText).1 ≠ [] := by
    rw [engineRun_bigText]
    simp
  refine ⟨h800, hne, ?_⟩
  exact (c4_model_failures truncId modelChunkOnly bigText h800).2.1 hne
    (by
      show 80 < (pyWords (engineCombined truncId modelChunkOnly bigText)).length
      rw [engineCombined, engineRun_bigText]
      show 80 < (pyWords combinedBig).length
      rw [combinedBig_wc]; norm_num)
    (by
      rw [lowTier_of_bigText]
      rfl)

theorem c2_chunking_witness :
    800 < (engineWords bigText).length ∧
    3 ≤ (engineAllChunks bigText).length ∧
    (generate_bert_summary truncId modelNone bigText).2.length ≤ 4 := by
  have h800 : 800 < (engineWords bigText).length := by
    show 800 < (pyWords (engineNorm bigText)).length
    rw [bigText_wc]; norm_num
  exact ⟨h800,
    (c2_chunking truncId modelNone bigText h800).2.2.2.1,
    (c2_chunking truncId modelNone bigText h800).2.2.2.2.2⟩

/-! ## `pyWords` toolkit: whitespace boundaries, strip, join/split -/

theorem pwGo_append_ws {c : Char} (hc : pyWs c = true) :
    ∀ (a : LC) (acc : LC) (b : LC),
    pwGo acc (a ++ c :: b) = pwGo acc a ++ pwGo [] b := by
  intro a
  induction a with
  | nil =>
    intro acc b
    by_cases hacc : acc.isEmpty
    · simp [pwGo, hc, hacc]
    · simp [pwGo, hc, hacc]
  | cons x a ih =>
    intro acc b
    by_cases hx : pyWs x
    · by_cases hacc : acc.isEmpty
      · simp [pwGo, hx, hacc, ih]
      · simp [pwGo, hx, hacc, ih]
    · simp [pwGo, hx, ih]

theorem pyWords_append_ws {c : Char} (hc : pyWs c = true) (a b : LC) :
    pyWords (a ++ c :: b) = pyWords a ++ pyWords b :=
  pwGo_append_ws hc a [] b

theorem pyWords_nil : pyWords [] = [] := rfl

theorem pyWords_all_ws : ∀ {t : LC}, (∀ x ∈ t, pyWs x = true) →
    pyWords t = [] := by
  intro t
  induction t with
  | nil => intro _; rfl
  | cons c rest ih =>
    intro h
    have hc : pyWs c = true := h c (by simp)
    show pwGo [] (c :: rest) = []
    rw [pwGo]
    simp only [hc, if_true, List.isEmpty_nil]
    exact ih (fun x hx => h x (by simp [hx]))

theorem pyWords_append_ws_right {t : LC} (ht : ∀ x ∈ t, pyWs x = true)
    (a : LC) : pyWords (a ++ t) = pyWords a := by
  match t, ht with
  | [], _ => simp
  | c :: t2, ht =>
    rw [pyWords_append_ws (ht c (by simp)) a t2]
    have h2 : pyWords t2 = [] :=
      pyWords_all_ws (fun x hx => ht x (List.mem_cons_of_mem c hx))
    rw [h2, List.append_nil]

theorem pyWords_append_ws_left {t : LC} (ht : ∀ x ∈ t, pyWs x = true)
    (a : LC) : pyWords (t ++ a) = pyWords a := by
  induction t with
  | nil => simp
  | cons c t2 ih =>
    have : (c :: t2) ++ a = [] ++ c :: (t2 ++ a) := by simp
    rw [this, pyWords_append_ws (ht c (by simp)) [] (t2 ++ a), pyWords_nil]
    simp only [List.nil_append]
    exact ih (fun x hx => ht x (List.mem_cons_of_mem c hx))

theorem pyWords_dropWhile (l : LC) :
    pyWords (l.dropWhile pyWs) = pyWords l := by
  conv_rhs => rw [← List.takeWhile_append_dropWhile pyWs l]
  rw [pyWords_append_ws_left (fun x hx => List.mem_takeWhile_imp hx)]

theorem pyWords_strip (l : LC) : pyWords (pyStrip l) = pyWords l := by
  rw [pyStrip]
  set m := l.dropWhile pyWs with hm
  have h1 : pyWords m = pyWords l := pyWords_dropWhile l
  have hdec : m = (m.reverse.dropWhile pyWs).reverse ++
      (m.reverse.takeWhile pyWs).reverse := by
    conv_lhs => rw [← List.reverse_reverse m]
    rw [← List.reverse_append, List.takeWhile_append_dropWhile]
  have hws : ∀ x ∈ (m.reverse.takeWhile pyWs).reverse, pyWs x = true := by
    intro x hx
    rw [List.mem_reverse] at hx
    exact List.mem_takeWhile_imp hx
  rw [← h1]
  conv_rhs => rw [hdec]
  rw [pyWords_append_ws_right hws]

/-- Joining with a whitespace separator splits `pyWords` piecewise. -/
theorem pyWords_pyJoin {sep : LC} (hsep : ∀ x ∈ sep, pyWs x = true)
    (hne : sep ≠ []) :
    ∀ L : List LC, pyWords (pyJoin sep L) = (L.map pyWords).flatten := by
  intro L
  induction L with
  | nil => rfl
  | cons p ps ih =>
    match ps, ih with
    | [], _ => simp [pyJoin]
    | q :: ps2, ih =>
      rw [pyJoin]
      match sep, hsep, hne with
      | c :: sepRest, hsep, _ =>
        have hassoc : p ++ (c :: sepRest) ++ pyJoin (c :: sepRest) (q :: ps2) =
            p ++ c :: (sepRest ++ pyJoin (c :: sepRest) (q :: ps2)) := by simp
        rw [hassoc, pyWords_append_ws (hsep c (by simp)) p _]
        rw [pyWords_append_ws_left (fun x hx => hsep x (List.mem_cons_of_mem c hx))]
        rw [ih]
        simp

theorem pySplitFuel_ne_nil (sep : LC) : ∀ (f : Nat) (l : LC),
    pySplitFuel sep f l ≠ [] := by
  intro f
  induction f with
  | zero => intro l; simp [pySplitFuel]
  | succ f ih =>
    intro l
    match l with
    | [] => simp [pySplitFuel]
    | c :: rest =>
      rw [pySplitFuel]
      split
      · simp
      · match h : pySplitFuel sep f rest, ih rest with
        | p :: ps, _ => simp [consHead]

theorem isPrefixOf_append_drop : ∀ (pat l : LC),
    pat.isPrefixOf l = true → pat ++ l.drop pat.length = l := by
  intro pat
  induction pat with
  | nil => intro l _; simp
  | cons a pat ih =>
    intro l h
    match l with
    | [] => simp [List.isPrefixOf] at h
    | b :: rest =>
      rw [List.isPrefixOf, Bool.and_eq_true, beq_iff_eq] at h
      obtain ⟨rfl, h2⟩ := h
      simp only [List.cons_append, List.length_cons, List.drop_succ_cons]
      rw [ih rest h2]

theorem pyJoin_pySplitFuel (sep : LC) : ∀ (f : Nat) (l : LC),
    pyJoin sep (pySplitFuel sep f l) = l := by
  intro f
  induction f with
  | zero => intro l; rfl
  | succ f ih =>
    intro l
    match l with
    | [] => rfl
    | c :: rest =>
      rw [pySplitFuel]
      split
      · rename_i hpre
        match hs : pySplitFuel sep f ((c :: rest).drop sep.length),
            pySplitFuel_ne_nil sep f ((c :: rest).drop sep.length) with
        | p :: ps, _ =>
          rw [pyJoin]
          have := ih ((c :: rest).drop sep.length)
          rw [hs] at this
          rw [this]
          simp only [List.nil_append]
          exact isPrefixOf_append_drop sep (c :: rest) hpre
      · match hs : pySplitFuel sep f rest,
            pySplitFuel_ne_nil sep f rest with
        | p :: ps, _ =>
          have := ih rest
          rw [hs] at this
          match ps, this with
          | [], this =>
            rw [consHead, pyJoin]
            rw [pyJoin] at this
            rw [this]
          | q :: ps2, this =>
            rw [consHead, pyJoin]
            rw [pyJoin] at this
            simp only [List.cons_append]
            rw [this]

/-- `sep.join(s.split(sep)) = s`. -/
theorem pyJoin_pySplit (sep l : LC) : pyJoin sep (pySplit sep l) = l :=
  pyJoin_pySplitFuel sep l.length l

/-! ## Claim C9: report building round trip -/

/-- The markup stripping shared by both report builders
(`service.py` lines 511 and 562):
`summary.replace('<strong>', '').replace('</strong>', '').replace('<br>', '\n')`. -/
def strip_markup (s : LC) : LC :=
  pyReplace ("<br>").data ("\n").data
    (pyReplace ("</strong>").data []
      (pyReplace ("<strong>").data [] s))

/-- The body text of the DOCX report (`generate_docx_report`,
`service.py` lines 562-567): one paragraph per non-blank stripped line. -/
def generate_docx_text (s : LC) : LC :=
  pyJoin ("\n").data
    (((pySplit ("\n").data (strip_markup s)).map pyStrip).filter
      (fun l => !l.isEmpty))

/-- The wrap loop of `generate_pdf_report` for lines over 80 characters
(`service.py` lines 516-526). -/
def wrapGo (cur : LC) : List LC → List LC
  | [] => if cur.isEmpty then [] else [pyStrip cur]
  | w :: ws =>
    if (cur ++ w).length < 80 then wrapGo (cur ++ w ++ [' ']) ws
    else pyStrip cur :: wrapGo (w ++ [' ']) ws

/-- The PDF cells emitted for one line (`service.py` lines 515-528). -/
def pdfLineCells (l : LC) : List LC :=
  if 80 < l.length then wrapGo [] (pySplit [' '] l) else [l]

/-- The body text of the PDF report (`generate_pdf_report`,
`service.py` lines 510-528). -/
def generate_pdf_text (s : LC) : LC :=
  pyJoin ("\n").data
    (((pySplit ("\n").data (strip_markup s)).map pdfLineCells).flatten)

/-- A 100-character line without markup. -/
def longLine : LC := List.replicate 100 'x'

/-- Counterexample to claim C9 as stated: (1) the DOCX builder drops the
blank line of `ab<br><br>cd`, so its text is not the markup-stripped
summary; (2) the PDF builder re-wraps a 100-character line, inserting a
line break (and a leading blank cell) absent from the summary. -/
theorem c9_counterexample :
    strip_markup ("ab<br><br>cd").data = ("ab\n\ncd").data ∧
    generate_docx_text ("ab<br><br>cd").data = ("ab\ncd").data ∧
    generate_docx_text ("ab<br><br>cd").data ≠
      strip_markup ("ab<br><br>cd").data ∧
    strip_markup longLine = longLine ∧
    generate_pdf_text longLine = ("\n").data ++ longLine ∧
    generate_pdf_text longLine ≠ strip_markup longLine := by decide

theorem nl_ws : ∀ x ∈ ("\n").data, pyWs x = true := by decide

theorem space_ws : ∀ x ∈ [' '], pyWs x = true := by decide

theorem pyWords_empty_of_strip_empty {l : LC} (h : pyStrip l = []) :
    pyWords l = [] := by
  rw [← pyWords_strip l, h, pyWords_nil]

/-- DOCX body: word sequence preserved. -/
theorem docx_words (s : LC) :
    pyWords (generate_docx_text s) = pyWords (strip_markup s) := by
  rw [generate_docx_text]
  rw [pyWords_pyJoin nl_ws (by simp)]
  conv_rhs => rw [← pyJoin_pySplit ("\n").data (strip_markup s)]
  rw [pyWords_pyJoin nl_ws (by simp)]
  set L := pySplit ("\n").data (strip_markup s)
  clear_value L
  induction L with
  | nil => rfl
  | cons p ps ih =>
    by_cases hp : (pyStrip p).isEmpty
    · have hpe : pyStrip p = [] := by
        cases h : pyStrip p
        · rfl
        · rw [h] at hp; cases hp
      simp only [List.map_cons, List.filter_cons, hp]
      simp only [Bool.not_true, List.flatten_cons]
      rw [pyWords_empty_of_strip_empty hpe]
      simpa using ih
    · simp only [List.map_cons, List.filter_cons, hp]
      simp only [Bool.not_false, List.flatten_cons, if_true]
      rw [List.map_cons, List.flatten_cons, pyWords_strip, ih]

/-- An invariant of the wrap accumulator: empty or space-terminated. -/
def SpaceEnded (cur : LC) : Prop := cur = [] ∨ ∃ cur0, cur = cur0 ++ [' ']

theorem pyWords_cur_word {cur w : LC} (h : SpaceEnded cur) :
    pyWords (cur ++ w ++ [' ']) = pyWords cur ++ pyWords w := by
  rw [pyWords_append_ws_right space_ws (cur ++ w)]
  rcases h with rfl | ⟨cur0, rfl⟩
  · simp [pyWords_nil]
  · have hrw : cur0 ++ [' '] ++ w = cur0 ++ ' ' :: w := by simp
    rw [hrw, pyWords_append_ws (by decide) cur0 w,
      pyWords_append_ws_right space_ws cur0]

theorem wrapGo_wordsJoin : ∀ (ws : List LC) (cur : LC), SpaceEnded cur →
    ((wrapGo cur ws).map pyWords).flatten =
      pyWords cur ++ (ws.map pyWords).flatten := by
  intro ws
  induction ws with
  | nil =>
    intro cur hcur
    rw [wrapGo]
    by_cases hc : cur.isEmpty
    · have hnil : cur = [] := by
        cases h : cur
        · rfl
        · rw [h] at hc; cases hc
      subst hnil
      simp [pyWords_nil]
    · simp only [hc, Bool.false_eq_true, if_false]
      simp [pyWords_strip]
  | cons w ws ih =>
    intro cur hcur
    rw [wrapGo]
    by_cases hlen : (cur ++ w).length < 80
    · rw [if_pos hlen]
      rw [ih (cur ++ w ++ [' ']) (Or.inr ⟨cur ++ w, by simp⟩)]
      rw [pyWords_cur_word hcur]
      simp [List.append_assoc]
    · rw [if_neg hlen]
      simp only [List.map_cons, List.flatten_cons]
      rw [ih (w ++ [' ']) (Or.inr ⟨w, rfl⟩)]
      rw [pyWords_strip, pyWords_append_ws_right space_ws w]

/-- One line's PDF cells: word sequence preserved. -/
theorem pdfLineCells_words (l : LC) :
    ((pdfLineCells l).map pyWords).flatten = pyWords l := by
  rw [pdfLineCells]
  by_cases h : 80 < l.length
  · rw [if_pos h, wrapGo_wordsJoin (pySplit [' '] l) [] (Or.inl rfl)]
    rw [pyWords_nil, List.nil_append]
    rw [← pyWords_pyJoin space_ws (by simp), pyJoin_pySplit]
  · rw [if_neg h]
    simp

/-- PDF body: word sequence preserved. -/
theorem pdf_words (s : LC) :
    pyWords (generate_pdf_text s) = pyWords (strip_markup s) := by
  rw [generate_pdf_text]
  rw [pyWords_pyJoin nl_ws (by simp)]
  rw [List.map_flatten, List.flatten_flatten, List.map_map, List.map_map]
  conv_rhs => rw [← pyJoin_pySplit ("\n").data (strip_markup s)]
  rw [pyWords_pyJoin nl_ws (by simp)]
  congr 1
  apply List.map_congr_left
  intro l _
  exact pdfLineCells_words l

/-- Claim C9 (amended): the text of a built report equals the
markup-stripped summary up to whitespace re-layout — the DOCX builder
trims lines and drops blank ones, the PDF builder re-wraps lines over 80
characters — and the word sequence is exactly preserved in both
formats. -/
theorem c9_report_words (s : LC) :
    pyWords (generate_docx_text s) = pyWords (strip_markup s) ∧
    pyWords (generate_pdf_text s) = pyWords (strip_markup s) :=
  ⟨docx_words s, pdf_words s⟩

/-! ## Claim C6: high-tier topic restructuring -/

/-- Bucket contents as order-preserving filters of the usable sentences
(spec-shaped characterization of the classification loop). -/
def bucketFilter (b : Bucket) (sentences : List LC) : List LC :=
  (sentences.filter (fun s => 15 < (cleanSentence s).length &&
    classifyBucket (pyLower s) == b)).map cleanSentence

def topic_buckets_spec (sentences : List LC) : Buckets :=
  ⟨bucketFilter .sports sentences, bucketFilter .international sentences,
   bucketFilter .crime sentences, bucketFilter .domestic sentences,
   bucketFilter .other sentences⟩

/-- Declarative form of the topic restructuring: sentence splitting, the
under-3-sentences flat fallback, and the fixed-order sections built from
the filtered buckets. -/
def topicRestructureSpec (s : LC) : LC :=
  let sentences := splitSentencesHigh s
  if 3 ≤ sentences.length then buildStructured (topic_buckets_spec sentences)
  else flatClean s

theorem foldl_bucketStep (l : List LC) : ∀ b : Buckets,
    l.foldl bucketStep b =
      ⟨b.sports ++ bucketFilter .sports l,
       b.international ++ bucketFilter .international l,
       b.crime ++ bucketFilter .crime l,
       b.domestic ++ bucketFilter .domestic l,
       b.other ++ bucketFilter .other l⟩ := by
  induction l with
  | nil => intro b; cases b; simp [bucketFilter]
  | cons s l ih =>
    intro b
    rw [List.foldl_cons, ih]
    by_cases hu : 15 < (cleanSentence s).length
    · cases hcb : classifyBucket (pyLower s) <;>
        (cases b; simp [bucketStep, bucketFilter, hu, hcb, List.filter_cons])
    · cases b
      simp [bucketStep, bucketFilter, hu, List.filter_cons]

theorem bucketize_eq_spec (sentences : List LC) :
    bucketize sentences = topic_buckets_spec sentences := by
  rw [bucketize, foldl_bucketStep]
  simp [topic_buckets_spec]

theorem topicRestructure_eq_spec (s : LC) :
    topicRestructure s = topicRestructureSpec s := by
  rw [topicRestructure, topicRestructureSpec, bucketize_eq_spec]

/-- A sentence matching a sports keyword (`team`) and a domestic keyword
(`government`) but none of `cricket`, `cup`, `match`. -/
def mixedSent : LC := ("the team backed the government decision strongly").data

/-- Counterexample to claim C6 as stated: the claimed precedence
crime > sports > international > domestic > other fails, because the
sports branch additionally requires `cricket`, `cup` or `match`
(`service.py` line 214): a sentence matching both the sports and the
domestic keyword lists is classified `domestic`, not `sports`. -/
theorem c6_counterexample :
    anyKeyword sports_keywords mixedSent = true ∧
    anyKeyword domestic_keywords mixedSent = true ∧
    cricketCupMatch mixedSent = false ∧
    classifyBucket mixedSent = Bucket.domestic ∧
    classifyBucket mixedSent ≠ Bucket.sports := by decide

/-- Claim C6 (amended): every usable sentence (longer than 15 characters
after per-sentence cleanup) is classified into exactly one bucket, with
precedence crime first, then sports — which additionally requires the
sentence to contain `cricket`, `cup` or `match` — then international,
then domestic, then other; the classification loop fills each bucket with
exactly the usable sentences matching it, in input order; the output
emits non-empty buckets in the fixed order sports, international, crime,
domestic, other with at most 3 bullet sentences for the main buckets and
at most 2 for other, skipping empty buckets; and if fewer than 3 usable
sentences result from sentence-splitting, restructuring is skipped and
the cleaned flat summary is emitted instead. -/
theorem c6_topic_restructure :
    (∀ lower : LC, anyKeyword crime_keywords lower = true →
      classifyBucket lower = Bucket.crime) ∧
    (∀ lower : LC, anyKeyword crime_keywords lower = false →
      anyKeyword sports_keywords lower = true → cricketCupMatch lower = true →
      classifyBucket lower = Bucket.sports) ∧
    (∀ lower : LC, anyKeyword crime_keywords lower = false →
      (anyKeyword sports_keywords lower && cricketCupMatch lower) = false →
      anyKeyword international_keywords lower = true →
      classifyBucket lower = Bucket.international) ∧
    (∀ lower : LC, anyKeyword crime_keywords lower = false →
      (anyKeyword sports_keywords lower && cricketCupMatch lower) = false →
      anyKeyword international_keywords lower = false →
      anyKeyword domestic_keywords lower = true →
      classifyBucket lower = Bucket.domestic) ∧
    (∀ lower : LC, anyKeyword crime_keywords lower = false →
      (anyKeyword sports_keywords lower && cricketCupMatch lower) = false →
      anyKeyword international_keywords lower = false →
      anyKeyword domestic_keywords lower = false →
      classifyBucket lower = Bucket.other) ∧
    (∀ s : LC, topicRestructure s = topicRestructureSpec s) ∧
    (∀ s : LC, (splitSentencesHigh s).length < 3 →
      topicRestructure s = flatClean s) := by
  refine ⟨?_, ?_, ?_, ?_, ?_, topicRestructure_eq_spec, ?_⟩
  · intro lower h
    simp [classifyBucket, h]
  · intro lower h1 h2 h3
    rw [classifyBucket, if_neg (by simp [h1]), if_pos (by simp [h2, h3])]
  · intro lower h1 h2 h3
    rw [classifyBucket, if_neg (by simp [h1]), if_neg (by simp [h2]),
      if_pos (by simp [h3])]
  · intro lower h1 h2 h3 h4
    rw [classifyBucket, if_neg (by simp [h1]), if_neg (by simp [h2]),
      if_neg (by simp [h3]), if_pos (by simp [h4])]
  · intro lower h1 h2 h3 h4
    rw [classifyBucket, if_neg (by simp [h1]), if_neg (by simp [h2]),
      if_neg (by simp [h3]), if_neg (by simp [h4])]
  · intro s h
    rw [topicRestructure, if_neg (by omega)]

/-- A sentence matching crime keywords as well as sports keywords. -/
def crimeSent : LC := ("police arrested the cup match winner today").data

theorem c6_topic_restructure_witness :
    anyKeyword crime_keywords crimeSent = true ∧
    classifyBucket crimeSent = Bucket.crime ∧
    (splitSentencesHigh ("Too short.").data).length < 3 ∧
    topicRestructure ("Too short.").data = flatClean ("Too short.").data :=
  ⟨by decide, c6_topic_restructure.1 crimeSent (by decide), by decide,
   c6_topic_restructure.2.2.2.2.2.2 ("Too short.").data (by decide)⟩

/-! ## Claim C7 toolkit (1): line-shape predicates and strip structure -/

/-- No two adjacent characters of class `p`. -/
def noAdj (p : Char → Bool) : LC → Bool
  | [] => true
  | [_] => true
  | a :: b :: rest => !(p a && p b) && noAdj p (b :: rest)

/-- No three adjacent dots. -/
def noTripleDot : LC → Bool
  | a :: b :: c :: rest =>
    !(a == '.' && b == '.' && c == '.') && noTripleDot (b :: c :: rest)
  | _ => true

/-- Every whitespace character is a plain space and no two are adjacent. -/
def wsSpaced (l : LC) : Bool :=
  l.all (fun c => !pyWs c || c == ' ') && noAdj pyWs l

/-- Neither end is whitespace. -/
def noEndWs (l : LC) : Bool :=
  (match l.head? with | none => true | some c => !pyWs c) &&
  (match l.getLast? with | none => true | some c => !pyWs c)

theorem noAdj_cons2 (p : Char → Bool) (a b : Char) (l : LC) :
    noAdj p (a :: b :: l) = (!(p a && p b) && noAdj p (b :: l)) := rfl

theorem noTriple_cons3 (a b c : Char) (l : LC) :
    noTripleDot (a :: b :: c :: l) =
      (!(a == '.' && b == '.' && c == '.') && noTripleDot (b :: c :: l)) := rfl

theorem noAdj_tail {p : Char → Bool} {c : Char} {l : LC}
    (h : noAdj p (c :: l) = true) : noAdj p l = true := by
  match l with
  | [] => rfl
  | b :: rest =>
    rw [noAdj_cons2, Bool.and_eq_true] at h
    exact h.2

theorem noAdj_cons_of {p : Char → Bool} {c : Char} {l : LC}
    (hc : p c = false) (h : noAdj p l = true) : noAdj p (c :: l) = true := by
  match l with
  | [] => rfl
  | b :: rest =>
    rw [noAdj_cons2, Bool.and_eq_true]
    exact ⟨by simp [hc], h⟩

theorem noAdj_cons_of_snd {p : Char → Bool} {c d : Char} {l : LC}
    (hd : p d = false) (h : noAdj p (d :: l) = true) :
    noAdj p (c :: d :: l) = true := by
  rw [noAdj_cons2, Bool.and_eq_true]
  exact ⟨by simp [hd], h⟩

theorem noTriple_tail {c : Char} {l : LC}
    (h : noTripleDot (c :: l) = true) : noTripleDot l = true := by
  match l with
  | [] => rfl
  | [b] => rfl
  | b :: d :: rest =>
    rw [noTriple_cons3, Bool.and_eq_true] at h
    exact h.2

theorem noTriple_cons_of_ne {c : Char} {l : LC} (hc : ¬c = '.')
    (h : noTripleDot l = true) : noTripleDot (c :: l) = true := by
  match l with
  | [] => rfl
  | [b] => rfl
  | b :: d :: rest =>
    rw [noTriple_cons3, Bool.and_eq_true]
    exact ⟨by simp [hc], h⟩

theorem noAdj_append_right {p : Char → Bool} :
    ∀ (a b : LC), noAdj p (a ++ b) = true → noAdj p b = true := by
  intro a
  induction a with
  | nil => intro b h; exact h
  | cons x a ih => intro b h; exact ih b (noAdj_tail h)

theorem noAdj_append_left {p : Char → Bool} :
    ∀ (a b : LC), noAdj p (a ++ b) = true → noAdj p a = true := by
  intro a
  induction a with
  | nil => intro b _; rfl
  | cons x a ih =>
    intro b h
    cases a with
    | nil => rfl
    | cons y a2 =>
      rw [List.cons_append, List.cons_append, noAdj_cons2,
        Bool.and_eq_true] at h
      rw [noAdj_cons2, Bool.and_eq_true]
      refine ⟨h.1, ih b ?_⟩
      rw [List.cons_append]
      exact h.2

theorem noTriple_append_right :
    ∀ (a b : LC), noTripleDot (a ++ b) = true → noTripleDot b = true := by
  intro a
  induction a with
  | nil => intro b h; exact h
  | cons x a ih => intro b h; exact ih b (noTriple_tail h)

theorem noTriple_append_left :
    ∀ (a b : LC), noTripleDot (a ++ b) = true → noTripleDot a = true := by
  intro a
  induction a with
  | nil => intro b _; rfl
  | cons x a ih =>
    intro b h
    cases a with
    | nil => rfl
    | cons y a2 =>
      cases a2 with
      | nil => rfl
      | cons z a3 =>
        rw [List.cons_append, List.cons_append, List.cons_append,
          noTriple_cons3, Bool.and_eq_true] at h
        rw [noTriple_cons3, Bool.and_eq_true]
        refine ⟨h.1, ih b ?_⟩
        rw [List.cons_append, List.cons_append]
        exact h.2

/-- Structural removal of trailing whitespace. -/
def dropTrailingWs : LC → LC
  | [] => []
  | c :: rest =>
    match dropTrailingWs rest with
    | [] => if pyWs c then [] else [c]
    | d :: r2 => c :: d :: r2

theorem dropTrailingWs_cons (c : Char) (rest : LC) :
    dropTrailingWs (c :: rest) =
      match dropTrailingWs rest with
      | [] => if pyWs c then [] else [c]
      | d :: r2 => c :: d :: r2 := rfl

theorem dropTrailingWs_nil_iff : ∀ {l : LC},
    dropTrailingWs l = [] ↔ ∀ x ∈ l, pyWs x = true := by
  intro l
  induction l with
  | nil => simp [dropTrailingWs]
  | cons c rest ih =>
    rw [dropTrailingWs_cons]
    match h : dropTrailingWs rest with
    | [] =>
      by_cases hc : pyWs c
      · rw [if_pos hc]
        constructor
        · intro _ x hx
          rcases List.mem_cons.mp hx with rfl | hx
          · exact hc
          · exact (ih.mp h) x hx
        · intro _; rfl
      · rw [if_neg hc]
        constructor
        · intro hcon; cases hcon
        · intro hall; exact absurd (hall c (by simp)) (by simp [hc])
    | d :: r2 =>
      constructor
      · intro hx; cases hx
      · intro hall
        have hnil : dropTrailingWs rest = [] :=
          ih.mpr (fun x hx => hall x (List.mem_cons_of_mem c hx))
        rw [h] at hnil
        cases hnil

theorem dropWhile_append_all {p : Char → Bool} :
    ∀ {a : LC} (b : LC), (∀ x ∈ a, p x = true) →
    (a ++ b).dropWhile p = b.dropWhile p := by
  intro a
  induction a with
  | nil => intro b _; rfl
  | cons x a ih =>
    intro b hall
    rw [List.cons_append, List.dropWhile_cons, if_pos (hall x (by simp))]
    exact ih b (fun y hy => hall y (List.mem_cons_of_mem x hy))

theorem dropWhile_append_ne {p : Char → Bool} :
    ∀ {a : LC} (b : LC), a.dropWhile p ≠ [] →
    (a ++ b).dropWhile p = a.dropWhile p ++ b := by
  intro a
  induction a with
  | nil => intro b h; exact absurd rfl h
  | cons x a ih =>
    intro b h
    rw [List.dropWhile_cons] at h ⊢
    by_cases hx : p x
    · rw [if_pos hx] at h ⊢
      rw [List.cons_append, List.dropWhile_cons, if_pos hx]
      exact ih b h
    · rw [if_neg hx] at h ⊢
      rw [List.cons_append, List.dropWhile_cons, if_neg hx]

/-- The reverse-based trailing strip agrees with the structural one. -/
theorem reverse_dropWhile_reverse (l : LC) :
    (l.reverse.dropWhile pyWs).reverse = dropTrailingWs l := by
  induction l with
  | nil => rfl
  | cons c rest ih =>
    rw [List.reverse_cons]
    match h : dropTrailingWs rest with
    | [] =>
      have hall : ∀ x ∈ rest, pyWs x = true := dropTrailingWs_nil_iff.mp h
      have hallr : ∀ x ∈ rest.reverse, pyWs x = true := by
        intro x hx; exact hall x (List.mem_reverse.mp hx)
      rw [dropWhile_append_all [c] hallr]
      rw [dropTrailingWs_cons, h]
      by_cases hc : pyWs c
      · simp [List.dropWhile_cons, hc]
      · simp [List.dropWhile_cons, hc]
    | d :: r2 =>
      have hne : rest.reverse.dropWhile pyWs ≠ [] := by
        intro hcon
        rw [← ih, hcon] at h
        cases h
      rw [dropWhile_append_ne [c] hne, List.reverse_append, ih, h,
        dropTrailingWs_cons, h]
      rfl

theorem pyStrip_eq_structural (l : LC) :
    pyStrip l = dropTrailingWs (l.dropWhile pyWs) := by
  rw [pyStrip, reverse_dropWhile_reverse]

/-- The decomposition behind a strip: the original is the strip plus
whitespace padding on both sides. -/
theorem pyStrip_decomp (l : LC) :
    ∃ a b : LC, l = a ++ pyStrip l ++ b ∧
      (∀ x ∈ a, pyWs x = true) ∧ (∀ x ∈ b, pyWs x = true) := by
  rw [pyStrip_eq_structural]
  refine ⟨l.takeWhile pyWs, ?_⟩
  have hdec : ∃ b : LC, l.dropWhile pyWs =
      dropTrailingWs (l.dropWhile pyWs) ++ b ∧ ∀ x ∈ b, pyWs x = true := by
    set m := l.dropWhile pyWs with hm
    clear_value m
    clear hm
    induction m with
    | nil => exact ⟨[], rfl, by simp⟩
    | cons c rest ih =>
      obtain ⟨b, hb, hbws⟩ := ih
      rw [dropTrailingWs_cons]
      match h : dropTrailingWs rest with
      | [] =>
        by_cases hc : pyWs c
        · refine ⟨c :: rest, by simp [hc], ?_⟩
          intro x hx
          rcases List.mem_cons.mp hx with rfl | hx
          · exact hc
          · exact dropTrailingWs_nil_iff.mp h x hx
        · refine ⟨rest, by simp [hc], dropTrailingWs_nil_iff.mp h⟩
      | d :: r2 =>
        rw [h] at hb
        exact ⟨b, by rw [List.cons_append, ← hb], hbws⟩
  obtain ⟨b, hb, hbws⟩ := hdec
  refine ⟨b, ?_, fun x hx => List.mem_takeWhile_imp hx, hbws⟩
  conv_lhs => rw [← List.takeWhile_append_dropWhile pyWs l, hb]
  rw [← List.append_assoc]

theorem noAdj_infix {p : Char → Bool} {a m b : LC}
    (h : noAdj p (a ++ m ++ b) = true) : noAdj p m = true :=
  noAdj_append_left m b (noAdj_append_right a (m ++ b)
    (by rwa [List.append_assoc] at h))

theorem noTriple_infix {a m b : LC}
    (h : noTripleDot (a ++ m ++ b) = true) : noTripleDot m = true :=
  noTriple_append_left m b (noTriple_append_right a (m ++ b)
    (by rwa [List.append_assoc] at h))

theorem noAdj_pyStrip {p : Char → Bool} {l : LC}
    (h : noAdj p l = true) : noAdj p (pyStrip l) = true := by
  obtain ⟨a, b, hl, _, _⟩ := pyStrip_decomp l
  rw [hl] at h
  exact noAdj_infix h

theorem noTriple_pyStrip {l : LC} (h : noTripleDot l = true) :
    noTripleDot (pyStrip l) = true := by
  obtain ⟨a, b, hl, _, _⟩ := pyStrip_decomp l
  rw [hl] at h
  exact noTriple_infix h

theorem wsSpaced_pyStrip {l : LC} (h : wsSpaced l = true) :
    wsSpaced (pyStrip l) = true := by
  rw [wsSpaced, Bool.and_eq_true] at h ⊢
  obtain ⟨a, b, hl, _, _⟩ := pyStrip_decomp l
  constructor
  · rw [List.all_eq_true] at *
    intro x hx
    refine h.1 x ?_
    rw [hl]
    simp [hx]
  · rw [hl] at h
    exact noAdj_infix h.2

/-! ## Claim C7 toolkit (2): fixed-point lemmas of the cleanup stages -/

theorem sqGo_cons (p : Char → Bool) (st : Option (Char × Bool)) (c : Char)
    (rest : LC) :
    sqGo p st (c :: rest) =
      if p c then
        match st with
        | none => sqGo p (some (c, false)) rest
        | some (f, _) => sqGo p (some (f, true)) rest
      else sqFlush st ++ c :: sqGo p none rest := rfl

theorem dotGo_cons (n : Nat) (c : Char) (rest : LC) :
    dotGo n (c :: rest) =
      if c = '.' then dotGo (n + 1) rest
      else dotFlush n ++ c :: dotGo 0 rest := rfl

theorem wsGo_cons (pending : Bool) (c : Char) (rest : LC) :
    wsGo pending (c :: rest) =
      if pyWs c then wsGo true rest
      else wsFlush pending ++ c :: wsGo false rest := rfl

theorem wsSpaced_tail {c : Char} {l : LC} (h : wsSpaced (c :: l) = true) :
    wsSpaced l = true := by
  rw [wsSpaced, Bool.and_eq_true] at h ⊢
  refine ⟨?_, noAdj_tail h.2⟩
  rw [List.all_eq_true] at *
  exact fun x hx => h.1 x (List.mem_cons_of_mem c hx)

theorem sqGo_fix {p : Char → Bool} :
    ∀ (l : LC), noAdj p l = true → sqGo p none l = l := by
  intro l
  induction l with
  | nil => intro _; rfl
  | cons c rest ih =>
    intro h
    by_cases hc : p c = true
    · rw [sqGo_cons, if_pos hc]
      cases rest with
      | nil => rfl
      | cons d r2 =>
        have hd : p d = false := by
          rw [noAdj_cons2, Bool.and_eq_true] at h
          have h1 := h.1
          cases hpd : p d
          · rfl
          · rw [hc, hpd] at h1; cases h1
        have h2 : sqGo p none (d :: r2) = d :: r2 := ih (noAdj_tail h)
        rw [sqGo_cons, if_neg (by simp [hd])] at h2
        simp only [sqFlush, List.nil_append, List.cons.injEq] at h2
        show sqGo p (some (c, false)) (d :: r2) = c :: d :: r2
        rw [sqGo_cons, if_neg (by simp [hd])]
        simp [sqFlush, h2.2]
    · rw [sqGo_cons, if_neg hc]
      simp [sqFlush, ih (noAdj_tail h)]

theorem dotGo_fix :
    ∀ (l : LC), noTripleDot l = true → dotGo 0 l = l := by
  intro l
  induction l with
  | nil => intro _; rfl
  | cons c rest ih =>
    intro h
    by_cases hc : c = '.'
    · subst hc
      rw [dotGo_cons, if_pos rfl]
      cases rest with
      | nil => rfl
      | cons d r2 =>
        by_cases hd : d = '.'
        · subst hd
          rw [dotGo_cons, if_pos rfl]
          cases r2 with
          | nil => rfl
          | cons e r3 =>
            have he : ¬e = '.' := by
              rw [noTriple_cons3, Bool.and_eq_true] at h
              have h1 := h.1
              intro hcon
              rw [hcon] at h1
              simp at h1
            have h2 : dotGo 0 ('.' :: e :: r3) = '.' :: e :: r3 :=
              ih (noTriple_tail h)
            rw [dotGo_cons, if_pos rfl, dotGo_cons, if_neg he] at h2
            simp only [dotFlush, List.cons.injEq] at h2
            rw [dotGo_cons, if_neg he]
            simp only [dotFlush]
            norm_num at h2
            have hrep : (List.replicate 2 '.' : LC) = ['.', '.'] := rfl
            simp [hrep, h2]
        · have h2 : dotGo 0 (d :: r2) = d :: r2 := ih (noTriple_tail h)
          rw [dotGo_cons, if_neg hd] at h2
          simp only [dotFlush, List.replicate, List.nil_append,
            List.cons.injEq] at h2
          rw [dotGo_cons, if_neg hd]
          simp only [dotFlush]
          norm_num at h2 ⊢
          exact h2
    · rw [dotGo_cons, if_neg hc]
      have h2 := ih (noTriple_tail h)
      simp [dotFlush, h2]

theorem wsGo_fix :
    ∀ (l : LC), wsSpaced l = true → wsGo false l = l := by
  intro l
  induction l with
  | nil => intro _; rfl
  | cons c rest ih =>
    intro h
    have htl := wsSpaced_tail h
    rw [wsSpaced, Bool.and_eq_true] at h
    obtain ⟨hall, hadj⟩ := h
    by_cases hc : pyWs c = true
    · have hsp : c = ' ' := by
        rw [List.all_eq_true] at hall
        have := hall c (by simp)
        rw [hc] at this
        simpa using this
      rw [wsGo_cons, if_pos hc]
      cases rest with
      | nil => simp [wsGo, wsFlush, hsp]
      | cons d r2 =>
        have hd : pyWs d = false := by
          rw [noAdj_cons2, Bool.and_eq_true] at hadj
          have h1 := hadj.1
          cases hpd : pyWs d
          · rfl
          · rw [hc, hpd] at h1; cases h1
        have h2 : wsGo false (d :: r2) = d :: r2 := ih htl
        rw [wsGo_cons, if_neg (by simp [hd])] at h2
        simp only [wsFlush, if_neg (by simp : ¬false = true),
          List.nil_append, List.cons.injEq] at h2
        rw [wsGo_cons, if_neg (by simp [hd])]
        simp [wsFlush, hsp, h2.2]
    · rw [wsGo_cons, if_neg hc]
      simp [wsFlush, ih htl]

theorem matchesEnenAt_false_of_head {l : LC}
    (h : (['e', 'n', 'e', 'n'] : LC).isPrefixOf l = false) :
    matchesEnenAt l = false := by
  rw [matchesEnenAt, chompLit, if_neg (by simp [h])]
  rfl

theorem enenFuel_of_not_contains :
    ∀ (f : Nat) (l : LC), containsSub ("enen").data l = false →
    enenFuel f l = l := by
  intro f
  induction f with
  | zero => intro l h; rfl
  | succ f ih =>
    intro l h
    match l with
    | [] => rfl
    | c :: rest =>
      obtain ⟨h1, h2⟩ := containsSub_cons_false h
      rw [enenFuel, if_neg (by simp [matchesEnenAt_false_of_head h1]),
        ih rest h2]

theorem removeEnen_fix {l : LC} (h : containsSub ("enen").data l = false) :
    removeEnen l = l :=
  enenFuel_of_not_contains l.length l h

theorem itSaysFuel_of_not_contains :
    ∀ (f : Nat) (l : LC), containsSub itSaysPat l = false →
    itSaysFuel f l = l := by
  intro f
  induction f with
  | zero => intro l h; rfl
  | succ f ih =>
    intro l h
    match l with
    | [] => rfl
    | c :: rest =>
      obtain ⟨h1, h2⟩ := containsSub_cons_false h
      rw [itSaysFuel, if_neg (by simp [h1]), ih rest h2]

theorem removeItSays_fix {l : LC} (h : containsSub itSaysPat l = false) :
    removeItSays l = l :=
  itSaysFuel_of_not_contains l.length l h

theorem noEndWs_head {l : LC} (h : noEndWs l = true) {c : Char}
    (hc : l.head? = some c) : pyWs c = false := by
  rw [noEndWs, Bool.and_eq_true] at h
  have h1 := h.1
  rw [hc] at h1
  simpa using h1

theorem noEndWs_last {l : LC} (h : noEndWs l = true) {c : Char}
    (hc : l.getLast? = some c) : pyWs c = false := by
  rw [noEndWs, Bool.and_eq_true] at h
  have h2 := h.2
  rw [hc] at h2
  simpa using h2

theorem dropTrailingWs_fix :
    ∀ (l : LC), (∀ c, l.getLast? = some c → pyWs c = false) →
    dropTrailingWs l = l := by
  intro l
  induction l with
  | nil => intro _; rfl
  | cons c rest ih =>
    intro h
    cases rest with
    | nil =>
      have hc : pyWs c = false := h c rfl
      simp [dropTrailingWs, hc]
    | cons d r =>
      have hre : dropTrailingWs (d :: r) = d :: r :=
        ih (fun x hx => h x (by rw [List.getLast?_cons_cons]; exact hx))
      rw [dropTrailingWs_cons, hre]

theorem pyStrip_fix {l : LC} (h : noEndWs l = true) : pyStrip l = l := by
  rw [pyStrip_eq_structural]
  have hdw : l.dropWhile pyWs = l := by
    cases l with
    | nil => rfl
    | cons c rest =>
      have hc : pyWs c = false := noEndWs_head h rfl
      rw [List.dropWhile_cons, if_neg (by simp [hc])]
  rw [hdw]
  exact dropTrailingWs_fix l (fun c hc => noEndWs_last h hc)

theorem head_dropWhile_not {p : Char → Bool} :
    ∀ (l : LC) {c : Char}, (l.dropWhile p).head? = some c → p c = false := by
  intro l
  induction l with
  | nil => intro c h; cases h
  | cons d rest ih =>
    intro c h
    rw [List.dropWhile_cons] at h
    by_cases hd : p d = true
    · rw [if_pos (by simp [hd])] at h
      exact ih h
    · rw [if_neg (by simp [Bool.not_eq_true] at hd; simp [hd])] at h
      injection h with h
      subst h
      simpa using hd

theorem dropTrailingWs_head :
    ∀ (l : LC) {c : Char}, (dropTrailingWs l).head? = some c →
    l.head? = some c := by
  intro l
  induction l with
  | nil => intro c h; cases h
  | cons d rest ih =>
    intro c h
    rw [dropTrailingWs_cons] at h
    match hdt : dropTrailingWs rest with
    | [] =>
      rw [hdt] at h
      by_cases hd : pyWs d = true
      · rw [if_pos hd] at h; cases h
      · rw [if_neg hd] at h
        injection h with h
        rw [h]
        rfl
    | e :: r2 =>
      rw [hdt] at h
      injection h with h
      rw [h]
      rfl

theorem dropTrailingWs_getLast :
    ∀ (l : LC) {c : Char}, (dropTrailingWs l).getLast? = some c →
    pyWs c = false := by
  intro l
  induction l with
  | nil => intro c h; cases h
  | cons d rest ih =>
    intro c h
    rw [dropTrailingWs_cons] at h
    match hdt : dropTrailingWs rest with
    | [] =>
      rw [hdt] at h
      by_cases hd : pyWs d = true
      · rw [if_pos hd] at h; cases h
      · rw [if_neg hd] at h
        have : d = c := by
          simpa using h
        subst this
        simpa using hd
    | e :: r2 =>
      rw [hdt] at h
      rw [List.getLast?_cons_cons, ← hdt] at h
      exact ih h

theorem pyStrip_noEndWs (l : LC) : noEndWs (pyStrip l) = true := by
  rw [pyStrip_eq_structural, noEndWs, Bool.and_eq_true]
  constructor
  · match hh : (dropTrailingWs (l.dropWhile pyWs)).head? with
    | none => rfl
    | some c =>
      have := head_dropWhile_not l (dropTrailingWs_head _ hh)
      simp [this]
  · match hg : (dropTrailingWs (l.dropWhile pyWs)).getLast? with
    | none => rfl
    | some c =>
      have := dropTrailingWs_getLast _ hg
      simp [this]

theorem containsSub_singleton_false {c : Char} :
    ∀ {l : LC}, c ∉ l → containsSub [c] l = false := by
  intro l
  induction l with
  | nil => intro _; rfl
  | cons d rest ih =>
    intro h
    rw [containsSub_cons, Bool.or_eq_false_iff]
    constructor
    · have hne : ¬c = d := fun hcd => h (by rw [hcd]; exact List.mem_cons_self d rest)
      simp [List.isPrefixOf, hne]
    · exact ih (fun hm => h (List.mem_cons_of_mem d hm))

theorem wsSpaced_no_newline {l : LC} (h : wsSpaced l = true) :
    ('\n') ∉ l := by
  intro hmem
  rw [wsSpaced, Bool.and_eq_true, List.all_eq_true] at h
  have := h.1 _ hmem
  revert this
  decide

/-! ## Claim C7 toolkit (3): shape invariants of the cleanup stages -/

theorem dotGo_nil (n : Nat) : dotGo n [] = dotFlush n := rfl

theorem dotFlush_eq_replicate (n : Nat) :
    dotFlush n = List.replicate (if 3 ≤ n then 1 else n) '.' := by
  rw [dotFlush]
  by_cases h : 3 ≤ n
  · simp [h]
  · simp [h]

theorem noAdj_cons_of_fst {p : Char → Bool} {c d : Char} {l : LC}
    (hc : p c = false) (h : noAdj p (d :: l) = true) :
    noAdj p (c :: d :: l) = true := by
  rw [noAdj_cons2, Bool.and_eq_true]
  exact ⟨by simp [hc], h⟩

theorem noTriple_cons_cons_of_ne_snd {c d : Char} {l : LC} (hd : ¬d = '.')
    (h : noTripleDot (d :: l) = true) : noTripleDot (c :: d :: l) = true := by
  match l with
  | [] => rfl
  | e :: r =>
    rw [noTriple_cons3, Bool.and_eq_true]
    exact ⟨by simp [hd], h⟩

theorem noTriple_dots2_append {c : Char} {x : LC} (hc : ¬c = '.')
    (h : noTripleDot (c :: x) = true) :
    ∀ k, k ≤ 2 → noTripleDot (List.replicate k '.' ++ c :: x) = true := by
  intro k hk
  interval_cases k
  · exact h
  · have hr : (List.replicate 1 '.' : LC) ++ c :: x = '.' :: c :: x := rfl
    rw [hr]
    exact noTriple_cons_cons_of_ne_snd hc h
  · have hr : (List.replicate 2 '.' : LC) ++ c :: x = '.' :: '.' :: c :: x := rfl
    rw [hr, noTriple_cons3, Bool.and_eq_true]
    exact ⟨by simp [hc], noTriple_cons_cons_of_ne_snd hc h⟩

theorem noAdj_replicate_dot_append {q : Char → Bool} (hdot : q '.' = false) :
    ∀ (k : Nat) (x : LC), noAdj q x = true →
    noAdj q (List.replicate k '.' ++ x) = true := by
  intro k
  induction k with
  | zero => intro x h; exact h
  | succ k ih =>
    intro x h
    rw [List.replicate_succ, List.cons_append]
    exact noAdj_cons_of hdot (ih x h)

theorem sqGo_noAdj {p : Char → Bool} :
    ∀ (l : LC) (st : Option (Char × Bool)), noAdj p (sqGo p st l) = true := by
  intro l
  induction l with
  | nil =>
    intro st
    rcases st with _ | ⟨f, _ | _⟩ <;> rfl
  | cons c rest ih =>
    intro st
    by_cases hc : p c = true
    · rw [sqGo_cons, if_pos hc]
      rcases st with _ | ⟨f, b⟩
      · exact ih _
      · exact ih _
    · have hc2 : p c = false := by rwa [Bool.not_eq_true] at hc
      rw [sqGo_cons, if_neg hc]
      have hcr : noAdj p (c :: sqGo p none rest) :=
        noAdj_cons_of hc2 (ih none)
      rcases st with _ | ⟨f, _ | _⟩
      · exact hcr
      · exact noAdj_cons_of_snd hc2 hcr
      · exact hcr

theorem dotGo_noTriple :
    ∀ (l : LC) (n : Nat), noTripleDot (dotGo n l) = true := by
  intro l
  induction l with
  | nil =>
    intro n
    rw [dotGo_nil, dotFlush_eq_replicate]
    by_cases h : 3 ≤ n
    · rw [if_pos h]
      decide
    · rw [if_neg h]
      have hn : n < 3 := by omega
      interval_cases n <;> decide
  | cons c rest ih =>
    intro n
    by_cases hc : c = '.'
    · subst hc
      rw [dotGo_cons, if_pos rfl]
      exact ih (n + 1)
    · rw [dotGo_cons, if_neg hc, dotFlush_eq_replicate]
      have hcr : noTripleDot (c :: dotGo 0 rest) :=
        noTriple_cons_of_ne hc (ih 0)
      exact noTriple_dots2_append hc hcr _ (by split <;> omega)

theorem wsGo_nil (pending : Bool) : wsGo pending [] = wsFlush pending := rfl

theorem wsGo_all_space :
    ∀ (l : LC) (pending : Bool),
    ((wsGo pending l).all (fun c => !pyWs c || c == ' ')) = true := by
  intro l
  induction l with
  | nil =>
    intro pending
    cases pending <;> decide
  | cons c rest ih =>
    intro pending
    by_cases hc : pyWs c = true
    · rw [wsGo_cons, if_pos hc]
      exact ih true
    · have hc2 : pyWs c = false := by rwa [Bool.not_eq_true] at hc
      rw [wsGo_cons, if_neg hc]
      rw [List.all_append, Bool.and_eq_true]
      constructor
      · cases pending <;> decide
      · rw [List.all_cons, Bool.and_eq_true]
        exact ⟨by simp [hc2], ih false⟩

theorem wsGo_noAdj :
    ∀ (l : LC) (pending : Bool), noAdj pyWs (wsGo pending l) = true := by
  intro l
  induction l with
  | nil =>
    intro pending
    cases pending <;> rfl
  | cons c rest ih =>
    intro pending
    by_cases hc : pyWs c = true
    · rw [wsGo_cons, if_pos hc]
      exact ih true
    · have hc2 : pyWs c = false := by rwa [Bool.not_eq_true] at hc
      rw [wsGo_cons, if_neg hc]
      have hcr : noAdj pyWs (c :: wsGo false rest) :=
        noAdj_cons_of hc2 (ih false)
      cases pending
      · exact hcr
      · exact noAdj_cons_of_snd hc2 hcr

theorem collapseWs_wsSpaced (l : LC) : wsSpaced (collapseWs l) = true := by
  rw [wsSpaced, Bool.and_eq_true]
  exact ⟨wsGo_all_space l false, wsGo_noAdj l false⟩

theorem dotGo_head_dot :
    ∀ (l : LC) (n : Nat), 1 ≤ n → ∃ t, dotGo n l = '.' :: t := by
  intro l
  induction l with
  | nil =>
    intro n hn
    rw [dotGo_nil, dotFlush_eq_replicate]
    by_cases h3 : 3 ≤ n
    · exact ⟨[], by simp [h3]⟩
    · rw [if_neg h3]
      match n, hn with
      | n + 1, _ => exact ⟨List.replicate n '.', by rw [List.replicate_succ]⟩
  | cons c rest ih =>
    intro n hn
    by_cases hc : c = '.'
    · subst hc
      rw [dotGo_cons, if_pos rfl]
      exact ih (n + 1) (by omega)
    · rw [dotGo_cons, if_neg hc, dotFlush_eq_replicate]
      by_cases h3 : 3 ≤ n
      · exact ⟨c :: dotGo 0 rest, by simp [h3]⟩
      · rw [if_neg h3]
        match n, hn with
        | n + 1, _ =>
          exact ⟨List.replicate n '.' ++ c :: dotGo 0 rest,
            by rw [List.replicate_succ, List.cons_append]⟩

theorem wsGo_head_space :
    ∀ (l : LC), ∃ t, wsGo true l = ' ' :: t := by
  intro l
  induction l with
  | nil => exact ⟨[], rfl⟩
  | cons c rest ih =>
    by_cases hc : pyWs c = true
    · rw [wsGo_cons, if_pos hc]
      exact ih
    · rw [wsGo_cons, if_neg hc]
      exact ⟨c :: wsGo false rest, rfl⟩

theorem dotGo_preserves_noAdj {q : Char → Bool} (hdot : q '.' = false) :
    ∀ (l : LC) (n : Nat), noAdj q l = true → noAdj q (dotGo n l) = true := by
  intro l
  induction l with
  | nil =>
    intro n _
    rw [dotGo_nil, dotFlush_eq_replicate]
    have := noAdj_replicate_dot_append hdot (if 3 ≤ n then 1 else n) [] rfl
    simpa using this
  | cons c rest ih =>
    intro n h
    by_cases hc : c = '.'
    · subst hc
      rw [dotGo_cons, if_pos rfl]
      exact ih (n + 1) (noAdj_tail h)
    · rw [dotGo_cons, if_neg hc, dotFlush_eq_replicate]
      refine noAdj_replicate_dot_append hdot _ _ ?_
      cases rest with
      | nil => rfl
      | cons d r =>
        by_cases hd : d = '.'
        · subst hd
          have hrw : dotGo 0 ('.' :: r) = dotGo 1 r := by
            rw [dotGo_cons, if_pos rfl]
          obtain ⟨t, ht⟩ := dotGo_head_dot r 1 (by omega)
          rw [hrw, ht, noAdj_cons2, Bool.and_eq_true]
          refine ⟨by simp [hdot], ?_⟩
          have := ih 0 (noAdj_tail h)
          rwa [hrw, ht] at this
        · have hrw : dotGo 0 (d :: r) = d :: dotGo 0 r := by
            rw [dotGo_cons, if_neg hd]
            rfl
          rw [hrw, noAdj_cons2, Bool.and_eq_true]
          rw [noAdj_cons2, Bool.and_eq_true] at h
          refine ⟨h.1, ?_⟩
          have := ih 0 (noAdj_tail (c := c) (by rw [noAdj_cons2, Bool.and_eq_true]; exact h))
          rwa [hrw] at this

theorem wsGo_preserves_noAdj {q : Char → Bool} (hsp : q ' ' = false) :
    ∀ (l : LC) (pending : Bool), noAdj q l = true →
    noAdj q (wsGo pending l) = true := by
  intro l
  induction l with
  | nil =>
    intro pending _
    cases pending <;> rfl
  | cons c rest ih =>
    intro pending h
    by_cases hc : pyWs c = true
    · rw [wsGo_cons, if_pos hc]
      exact ih true (noAdj_tail h)
    · rw [wsGo_cons, if_neg hc]
      have hcr : noAdj q (c :: wsGo false rest) = true := by
        cases rest with
        | nil => rfl
        | cons d r =>
          by_cases hd : pyWs d = true
          · have hrw : wsGo false (d :: r) = wsGo true r := by
              rw [wsGo_cons, if_pos hd]
            obtain ⟨t, ht⟩ := wsGo_head_space r
            rw [hrw, ht, noAdj_cons2, Bool.and_eq_true]
            refine ⟨by simp [hsp], ?_⟩
            have := ih false (noAdj_tail h)
            rwa [hrw, ht] at this
          · have hrw : wsGo false (d :: r) = d :: wsGo false r := by
              rw [wsGo_cons, if_neg hd]
              rfl
            rw [hrw, noAdj_cons2, Bool.and_eq_true]
            rw [noAdj_cons2, Bool.and_eq_true] at h
            refine ⟨h.1, ?_⟩
            have := ih false (noAdj_tail (c := c)
              (by rw [noAdj_cons2, Bool.and_eq_true]; exact h))
            rwa [hrw] at this
      cases pending
      · exact hcr
      · exact noAdj_cons_of_fst hsp hcr

theorem wsGo_preserves_noTriple :
    ∀ (l : LC) (pending : Bool), noTripleDot l = true →
    noTripleDot (wsGo pending l) = true := by
  intro l
  induction l with
  | nil =>
    intro pending _
    cases pending <;> rfl
  | cons c rest ih =>
    intro pending h
    by_cases hc : pyWs c = true
    · rw [wsGo_cons, if_pos hc]
      exact ih true (noTriple_tail h)
    · rw [wsGo_cons, if_neg hc]
      have hcr : noTripleDot (c :: wsGo false rest) = true := by
        cases rest with
        | nil => rfl
        | cons d r =>
          by_cases hd : pyWs d = true
          · have hrw : wsGo false (d :: r) = wsGo true r := by
              rw [wsGo_cons, if_pos hd]
            obtain ⟨t, ht⟩ := wsGo_head_space r
            rw [hrw, ht]
            refine @noTriple_cons_cons_of_ne_snd c ' ' t (by decide) ?_
            have := ih false (noTriple_tail h)
            rwa [hrw, ht] at this
          · have hrw : wsGo false (d :: r) = d :: wsGo false r := by
              rw [wsGo_cons, if_neg hd]
              rfl
            rw [hrw]
            have hihd : noTripleDot (d :: wsGo false r) = true := by
              have := ih false (noTriple_tail h)
              rwa [hrw] at this
            cases r with
            | nil => rfl
            | cons e r2 =>
              by_cases he : pyWs e = true
              · have hrw2 : wsGo false (e :: r2) = wsGo true r2 := by
                  rw [wsGo_cons, if_pos he]
                obtain ⟨t2, ht2⟩ := wsGo_head_space r2
                rw [hrw2, ht2]
                rw [hrw2, ht2] at hihd
                rw [noTriple_cons3, Bool.and_eq_true]
                have hlit : ((' ') == '.') = false := by decide
                exact ⟨by simp [hlit], hihd⟩
              · have hrw2 : wsGo false (e :: r2) = e :: wsGo false r2 := by
                  rw [wsGo_cons, if_neg he]
                  rfl
                rw [hrw2]
                rw [hrw2] at hihd
                rw [noTriple_cons3, Bool.and_eq_true]
                refine ⟨?_, hihd⟩
                rw [noTriple_cons3, Bool.and_eq_true] at h
                exact h.1
      cases pending
      · exact hcr
      · exact @noTriple_cons_of_ne ' ' _ (by decide) hcr

/-- Every line produced by the per-line cleanup has normalized whitespace,
no adjacent dashes, no triple dots and no whitespace at either end. -/
theorem cleanLine_shape (x : LC) :
    noEndWs (cleanLine x) = true ∧ wsSpaced (cleanLine x) = true ∧
    noAdj dashChar (cleanLine x) = true ∧ noTripleDot (cleanLine x) = true := by
  rw [cleanLine]
  refine ⟨pyStrip_noEndWs _, wsSpaced_pyStrip (collapseWs_wsSpaced _), ?_, ?_⟩
  · refine noAdj_pyStrip ?_
    refine wsGo_preserves_noAdj (by decide) _ false ?_
    refine dotGo_preserves_noAdj (by decide) _ 0 ?_
    exact sqGo_noAdj _ none
  · refine noTriple_pyStrip ?_
    refine wsGo_preserves_noTriple _ false ?_
    exact dotGo_noTriple _ 0

/-- A line of that shape which additionally contains neither `enen` nor
`it says` is a fixed point of the per-line cleanup. -/
theorem cleanLine_fix {l : LC}
    (h1 : noEndWs l = true) (h2 : wsSpaced l = true)
    (h3 : noAdj dashChar l = true) (h4 : noTripleDot l = true)
    (henen : containsSub ("enen").data l = false)
    (hsays : containsSub itSaysPat l = false) :
    cleanLine l = l := by
  rw [cleanLine, pyStrip_fix h1, removeEnen_fix henen, removeItSays_fix hsays]
  rw [show squeezeRun2 dashChar l = l from sqGo_fix l h3]
  rw [show collapseDots l = l from dotGo_fix l h4]
  rw [show collapseWs l = l from wsGo_fix l h2]
  exact pyStrip_fix h1

/-! ## Claim C7 toolkit (4): substring transfer and the split/join round trip -/

theorem isPrefixOf_append_left {p a : LC} (b : LC)
    (h : p.isPrefixOf a = true) : p.isPrefixOf (a ++ b) = true := by
  rw [List.isPrefixOf_iff_prefix] at *
  exact h.trans (List.prefix_append a b)

theorem containsSub_nil_pat (l : LC) : containsSub [] l = true := by
  cases l with
  | nil => rfl
  | cons c rest => rw [containsSub_cons]; simp [List.isPrefixOf]

theorem containsSub_append_left {pat : LC} :
    ∀ {a : LC} (b : LC), containsSub pat a = true →
    containsSub pat (a ++ b) = true := by
  intro a
  induction a with
  | nil =>
    intro b h
    have : pat = [] := by
      rw [containsSub] at h
      simpa [List.isEmpty_iff] using h
    rw [this]
    exact containsSub_nil_pat b
  | cons c a ih =>
    intro b h
    rw [containsSub_cons, Bool.or_eq_true] at h
    rw [List.cons_append, containsSub_cons, Bool.or_eq_true]
    rcases h with h | h
    · left
      have := isPrefixOf_append_left b h
      rwa [List.cons_append] at this
    · right
      exact ih b h

theorem containsSub_append_right {pat : LC} :
    ∀ (a : LC) {b : LC}, containsSub pat b = true →
    containsSub pat (a ++ b) = true := by
  intro a
  induction a with
  | nil => intro b h; exact h
  | cons c a ih =>
    intro b h
    rw [List.cons_append, containsSub_cons, Bool.or_eq_true]
    exact Or.inr (ih h)

theorem containsSub_join_piece {pat sep : LC} :
    ∀ {L : List LC} {p : LC}, p ∈ L → containsSub pat p = true →
    containsSub pat (pyJoin sep L) = true := by
  intro L
  induction L with
  | nil => intro p hp; cases hp
  | cons q L ih =>
    intro p hp hc
    cases L with
    | nil =>
      rcases List.mem_cons.mp hp with rfl | hx
      · exact hc
      · cases hx
    | cons r rs =>
      rw [pyJoin]
      rcases List.mem_cons.mp hp with rfl | hx
      · rw [List.append_assoc]
        exact containsSub_append_left _ hc
      · exact containsSub_append_right _ (ih hx hc)

theorem containsSub_self_append {sep : LC} (t : LC) (hsep : sep ≠ []) :
    containsSub sep (sep ++ t) = true := by
  match sep, hsep with
  | c :: s, _ =>
    rw [List.cons_append, containsSub_cons, Bool.or_eq_true]
    left
    have : (c :: s).isPrefixOf ((c :: s) ++ t) = true := by
      rw [List.isPrefixOf_iff_prefix]
      exact List.prefix_append _ _
    rwa [List.cons_append] at this

theorem containsSub_join_sep {sep : LC} (hsep : sep ≠ []) (q r : LC)
    (rs : List LC) :
    containsSub sep (pyJoin sep (q :: r :: rs)) = true := by
  rw [pyJoin, List.append_assoc]
  exact containsSub_append_right q (containsSub_self_append _ hsep)

theorem pySplit_cons_of_piece {c0 : Char} :
    ∀ (p : LC) (rest : LC), containsSub [c0] p = false →
    pySplit [c0] (p ++ c0 :: rest) = p :: pySplit [c0] rest := by
  intro p
  induction p with
  | nil =>
    intro rest _
    rw [List.nil_append, pySplit]
    simp only [List.length_cons]
    rw [pySplitFuel, if_pos (by simp [List.isPrefixOf])]
    simp only [List.length_cons, List.drop_succ_cons, List.drop_zero]
    rfl
  | cons x p2 ih =>
    intro rest h
    obtain ⟨h1, h2⟩ := containsSub_cons_false h
    have hne : ¬c0 = x := by
      intro hcon
      rw [hcon] at h1
      simp [List.isPrefixOf] at h1
    rw [List.cons_append, pySplit]
    simp only [List.length_cons]
    rw [pySplitFuel, if_neg (by simp [List.isPrefixOf, hne])]
    have hfold : pySplitFuel [c0] ((p2 ++ c0 :: rest).length) (p2 ++ c0 :: rest)
        = pySplit [c0] (p2 ++ c0 :: rest) := rfl
    rw [hfold, ih rest h2]
    rfl

theorem pySplit_pyJoin_single {c0 : Char} :
    ∀ (L : List LC), L ≠ [] → (∀ p ∈ L, containsSub [c0] p = false) →
    pySplit [c0] (pyJoin [c0] L) = L := by
  intro L
  induction L with
  | nil => intro h _; exact absurd rfl h
  | cons p L ih =>
    intro _ hall
    cases L with
    | nil =>
      rw [pyJoin]
      rw [pySplit_of_not_contains (hall p (by simp))]
    | cons q ps =>
      rw [pyJoin]
      have hj : p ++ [c0] ++ pyJoin [c0] (q :: ps) =
          p ++ c0 :: pyJoin [c0] (q :: ps) := by
        rw [List.append_assoc]
        rfl
      rw [hj, pySplit_cons_of_piece p _ (hall p (by simp))]
      rw [ih (by simp) (fun x hx => hall x (List.mem_cons_of_mem p hx))]

theorem pyJoin_ne_nil {sep : LC} :
    ∀ {L : List LC}, (∀ p ∈ L, p ≠ []) → L ≠ [] → pyJoin sep L ≠ [] := by
  intro L
  induction L with
  | nil => intro _ h; exact absurd rfl h
  | cons p L ih =>
    intro hne _
    cases L with
    | nil => exact hne p (by simp)
    | cons q ps =>
      rw [pyJoin]
      intro hcon
      rcases List.append_eq_nil.mp hcon with ⟨hcon2, _⟩
      rcases List.append_eq_nil.mp hcon2 with ⟨hp, _⟩
      exact hne p (by simp) hp

theorem pyJoin_head {sep : LC} :
    ∀ (p : LC) (ps : List LC), p ≠ [] →
    (pyJoin sep (p :: ps)).head? = p.head? := by
  intro p ps hp
  cases ps with
  | nil => rfl
  | cons q ps2 =>
    rw [pyJoin]
    match p, hp with
    | c :: p2, _ => rfl

theorem pyJoin_getLast {sep : LC} :
    ∀ (L : List LC), (∀ p ∈ L, p ≠ []) → L ≠ [] →
    ∃ q ∈ L, (pyJoin sep L).getLast? = q.getLast? := by
  intro L
  induction L with
  | nil => intro _ h; exact absurd rfl h
  | cons p L ih =>
    intro hne _
    cases L with
    | nil => exact ⟨p, by simp, rfl⟩
    | cons q ps =>
      have hrest : ∀ x ∈ q :: ps, x ≠ [] :=
        fun x hx => hne x (List.mem_cons_of_mem p hx)
      obtain ⟨w, hw, hlast⟩ := ih hrest (by simp)
      refine ⟨w, List.mem_cons_of_mem p hw, ?_⟩
      rw [pyJoin, List.append_assoc,
        List.getLast?_append_of_ne_nil p
          (fun hcon => (by
            rcases List.append_eq_nil.mp hcon with ⟨_, hj⟩
            exact pyJoin_ne_nil hrest (by simp) hj)),
        List.getLast?_append_of_ne_nil sep (pyJoin_ne_nil hrest (by simp)),
        hlast]

theorem noEndWs_build {l : LC}
    (hh : ∀ c, l.head? = some c → pyWs c = false)
    (hg : ∀ c, l.getLast? = some c → pyWs c = false) : noEndWs l = true := by
  rw [noEndWs, Bool.and_eq_true]
  constructor
  · match hc : l.head? with
    | none => rfl
    | some c => simp [hh c hc]
  · match hc : l.getLast? with
    | none => rfl
    | some c => simp [hg c hc]

theorem noEndWs_pyJoin {sep : LC} {L : List LC}
    (hne : ∀ p ∈ L, p ≠ []) (h : ∀ p ∈ L, noEndWs p = true) (hL : L ≠ []) :
    noEndWs (pyJoin sep L) = true := by
  match L, hL with
  | p :: ps, _ =>
    refine noEndWs_build ?_ ?_
    · intro c hc
      rw [pyJoin_head p ps (hne p (by simp))] at hc
      exact noEndWs_head (h p (by simp)) hc
    · intro c hc
      obtain ⟨q, hq, hlast⟩ := pyJoin_getLast (p :: ps) hne (by simp)
      rw [hlast] at hc
      exact noEndWs_last (h q hq) hc

/-! ## Claim C7: idempotence of the final cleanup -/

theorem keepLine_no_enen {l : LC} (h : keepLine l = true) :
    containsSub ("enen").data l = false := by
  rw [keepLine] at h
  simp only [Bool.and_eq_true] at h
  simpa using h.1.2

theorem keepLine_ne_nil {l : LC} (h : keepLine l = true) : l ≠ [] := by
  rw [keepLine] at h
  simp only [Bool.and_eq_true] at h
  have hlen : 3 < l.length := by simpa using h.1.1.1.1
  intro hcon
  rw [hcon] at hlen
  exact absurd hlen (by decide)

theorem finalCleanup_nl {t : LC} (ht : containsSub ("<br>").data t = false) :
    finalCleanup t = pyStrip (pyJoin ("\n").data
      (((pySplit ("\n").data t).map cleanLine).filter keepLine)) := by
  have h0 : finalCleanup t = pyStrip (pyJoin
      (if containsSub ("<br>").data t then ("<br>").data else ("\n").data)
      (((pySplit (if containsSub ("<br>").data t then ("<br>").data
        else ("\n").data) t).map cleanLine).filter keepLine)) := rfl
  rw [h0, ht, if_neg Bool.false_ne_true]

/-- C7 (corrected): the final line-level cleanup is idempotent on every
input whose cleaned output contains neither the literal `it says` nor the
literal `<br>`: a second application returns the first output unchanged.
(Unconditional idempotence is refuted by `c7_counterexample`: a second
pass can re-match `it says` fragments assembled by the first pass and
then drop the shortened line.) -/
theorem c7_cleanup_idempotent (s : LC)
    (h1 : containsSub itSaysPat (finalCleanup s) = false)
    (h2 : containsSub ("<br>").data (finalCleanup s) = false) :
    finalCleanup (finalCleanup s) = finalCleanup s := by
  set sep0 := if containsSub ("<br>").data s then ("<br>").data
    else ("\n").data with hsep0
  set cl := ((pySplit sep0 s).map cleanLine).filter keepLine with hcl
  have hfc : finalCleanup s = pyStrip (pyJoin sep0 cl) := rfl
  have hfacts : ∀ l ∈ cl, noEndWs l = true ∧ wsSpaced l = true ∧
      noAdj dashChar l = true ∧ noTripleDot l = true ∧ keepLine l = true := by
    intro l hl
    rw [hcl] at hl
    have hf := List.mem_filter.mp hl
    obtain ⟨x, hx, hxl⟩ := List.mem_map.mp hf.1
    obtain ⟨s1, s2, s3, s4⟩ := cleanLine_shape x
    rw [hxl] at s1 s2 s3 s4
    exact ⟨s1, s2, s3, s4, hf.2⟩
  rcases hclc : cl with _ | ⟨l1, rest⟩
  · rw [hfc, hclc]
    have hz : pyStrip (pyJoin sep0 ([] : List LC)) = [] := rfl
    rw [hz]
    decide
  · have hne : ∀ p ∈ cl, p ≠ [] :=
      fun p hp => keepLine_ne_nil (hfacts p hp).2.2.2.2
    have hnoend : ∀ p ∈ cl, noEndWs p = true := fun p hp => (hfacts p hp).1
    have hclnil : cl ≠ [] := by rw [hclc]; exact List.cons_ne_nil _ _
    have hG2 : pyStrip (pyJoin sep0 cl) = pyJoin sep0 cl :=
      pyStrip_fix (noEndWs_pyJoin hne hnoend hclnil)
    have hfc2 : finalCleanup s = pyJoin sep0 cl := by rw [hfc, hG2]
    have hsays : ∀ p ∈ cl, containsSub itSaysPat p = false := by
      intro p hp
      cases hps : containsSub itSaysPat p
      · rfl
      · exfalso
        have hj : containsSub itSaysPat (pyJoin sep0 cl) = true :=
          containsSub_join_piece hp hps
        rw [← hfc2] at hj
        rw [h1] at hj
        cases hj
    have hnonl : ∀ p ∈ cl, containsSub ("\n").data p = false := fun p hp =>
      containsSub_singleton_false (wsSpaced_no_newline (hfacts p hp).2.1)
    have hjoin_nl : pyJoin sep0 cl = pyJoin ("\n").data cl := by
      rcases hclc2 : rest with _ | ⟨r1, rs⟩
      · rw [hclc, hclc2]
        rfl
      · have hsep_nl : sep0 = ("\n").data := by
          rw [hsep0]
          by_cases hbrs : containsSub ("<br>").data s = true
          · exfalso
            have hs0 : sep0 = ("<br>").data := by rw [hsep0, if_pos hbrs]
            have hjbr : containsSub ("<br>").data (finalCleanup s) = true := by
              rw [hfc2, hclc, hclc2, hs0]
              exact containsSub_join_sep (by decide) l1 r1 rs
            rw [h2] at hjbr
            cases hjbr
          · rw [if_neg hbrs]
        rw [hsep_nl]
    have hbr2 : containsSub ("<br>").data (pyJoin ("\n").data cl) = false := by
      rw [← hjoin_nl, ← hfc2]
      exact h2
    have hsplit : pySplit ("\n").data (pyJoin ("\n").data cl) = cl :=
      pySplit_pyJoin_single cl hclnil hnonl
    have hmapfix : cl.map cleanLine = cl := by
      have hfix : ∀ l ∈ cl, cleanLine l = l := by
        intro l hl
        obtain ⟨s1, s2, s3, s4, s5⟩ := hfacts l hl
        exact cleanLine_fix s1 s2 s3 s4 (keepLine_no_enen s5) (hsays l hl)
      have := List.map_congr_left (fun a ha => (hfix a ha : cleanLine a = id a))
      rw [this]
      exact List.map_id' cl
    have hfilter : cl.filter keepLine = cl :=
      List.filter_eq_self.mpr (fun a ha => (hfacts a ha).2.2.2.2)
    rw [hfc2, hjoin_nl, finalCleanup_nl hbr2, hsplit, hmapfix, hfilter]
    exact pyStrip_fix (noEndWs_pyJoin hne hnoend hclnil)

/-- C7 counterexample: the cleanup is not idempotent in general. The first
pass turns `it sayit says s Foo` into `it says Foo` (removing the inner
`it says` match re-assembles a new one); the second pass removes the new
match, leaving `Foo`, which the length filter then drops entirely. -/
theorem c7_counterexample :
    finalCleanup (("it sayit says s Foo").data) = ("it says Foo").data ∧
    finalCleanup (finalCleanup (("it sayit says s Foo").data)) ≠
      finalCleanup (("it sayit says s Foo").data) := by
  constructor
  · decide
  · decide

theorem c7_cleanup_idempotent_witness :
    containsSub itSaysPat
      (finalCleanup ("Hello World.\nAnother Good Line.").data) = false ∧
    containsSub ("<br>").data
      (finalCleanup ("Hello World.\nAnother Good Line.").data) = false ∧
    finalCleanup (finalCleanup ("Hello World.\nAnother Good Line.").data) =
      finalCleanup ("Hello World.\nAnother Good Line.").data :=
  ⟨by decide, by decide,
    c7_cleanup_idempotent ("Hello World.\nAnother Good Line.").data
      (by decide) (by decide)⟩
